import Mathlib

/-!
A verification development for the image-scraper pipeline in `app.py`
(class `UniversalImageScraper` plus the module-level PPT batching helpers).

Strings are modelled as `List Char` (Python `str`), byte strings as
`List Nat`.  Network I/O, SHA-256, and PIL decoding are modelled as
explicit function parameters (`env`, `sha256`, `imageOpen`): the pipeline
code is translated faithfully, the external world is abstracted.
`download_and_validate_image` is modelled per call, with the shared
`seen_hashes` set threaded explicitly.  The 5-worker thread pool of
`download_all_images` is not modelled: its workers mutate `seen_hashes`
without synchronization, and the membership check and the insert of one
call are separated by decode/resize/re-encode, so the pool itself grants
no run-level property beyond the per-call footprint proved below.
-/

/-- Python `sub in s` substring containment for strings. -/
def containsSub (needle : List Char) : List Char → Bool
  | [] => needle.isPrefixOf []
  | c :: t => needle.isPrefixOf (c :: t) || containsSub needle t

/-- Python `str.lower()`, restricted to the ASCII case mapping that both
Python and Lean apply to ASCII letters (the URLs involved are ASCII). -/
def strLower (s : List Char) : List Char := s.map Char.toLower

/-- Python `s.split(m)[0]`: the part of `s` before the first occurrence
of `m` (all of `s` when `m` does not occur). -/
def beforeFirst (m : Char) (s : List Char) : List Char :=
  s.takeWhile (fun c => c != m)

/-- `app.py` line 192: the image-extension allowlist of `is_image_url`. -/
def image_extensions : List (List Char) :=
  [".jpg".toList, ".jpeg".toList, ".png".toList, ".gif".toList, ".bmp".toList,
   ".webp".toList, ".svg".toList, ".ico".toList, ".tiff".toList, ".tif".toList,
   ".avif".toList, ".jfif".toList, ".pjpeg".toList, ".pjp".toList, ".apng".toList,
   ".heic".toList, ".heif".toList]

/-- `app.py` line 201: the path-keyword allowlist of `is_image_url`. -/
def image_keywords : List (List Char) :=
  ["/image/".toList, "/img/".toList, "/photo/".toList, "/picture/".toList,
   "/pic/".toList, "/media/".toList, "/asset/".toList, "/upload/".toList,
   "/content/".toList, "/gallery/".toList, "/thumbnail/".toList, "/thumb/".toList,
   "/banner/".toList, "/icon/".toList, "/logo/".toList, "/bg/".toList,
   "/background/".toList, "/files/".toList]

/-- `app.py` line 212: the CDN-pattern allowlist of `is_image_url`. -/
def cdn_patterns : List (List Char) :=
  ["cloudinary".toList, "imgix".toList, "cloudflare".toList, "fastly".toList,
   "akamai".toList, "images".toList, "static".toList, "cdn".toList, "assets".toList]

/-- `UniversalImageScraper.is_image_url` (`app.py` lines 175-227): the
permissive image-URL classifier.  The `try` block contains no failing
operation on these pure string tests, so the `except` path is dead. -/
def is_image_url (url : List Char) : Bool :=
  if url.length < 4 then false
  else
    let url_lower := strLower url
    if containsSub "cdn.shopify.com".toList url_lower then true
    else
      let url_without_query := beforeFirst '#' (beforeFirst '?' url_lower)
      if image_extensions.any (fun ext => ext.isSuffixOf url_without_query) then true
      else if image_keywords.any (fun kw => containsSub kw url_lower) then true
      else if cdn_patterns.any (fun pat => containsSub pat url_lower) then true
      else if containsSub "image".toList url_lower || containsSub "img".toList url_lower
              || containsSub "photo".toList url_lower then true
      else false

/-- The final filtering loop of `UniversalImageScraper.extract_all_images`
(`app.py` lines 161-168), keeping the `seen` accumulator explicit.  The
loop body appends to `valid_images` and adds to `seen` together, inside
the `is_image_url` test. -/
def extract_valid_images_aux : List (List Char) → List (List Char) → List (List Char)
  | [], _ => []
  | img :: rest, seen =>
    if img ≠ [] ∧ img ∉ seen then
      if is_image_url img then img :: extract_valid_images_aux rest (img :: seen)
      else extract_valid_images_aux rest seen
    else extract_valid_images_aux rest seen

/-- The filtering stage of `extract_all_images`: dedupe by literal URL and
keep only URLs accepted by `is_image_url` (`app.py` lines 161-173). -/
def extract_valid_images (images : List (List Char)) : List (List Char) :=
  extract_valid_images_aux images []

/-- The filtering stage applied to candidates that carry a DOM-context
string.  `extract_all_images` collects bare URL strings only and never
records or consults any surrounding DOM context, so a candidate's context
is discarded before the filtering loop runs. -/
def filter_candidates (cands : List (List Char × List Char)) : List (List Char) :=
  extract_valid_images (cands.map Prod.fst)

/-- PIL color modes relevant to `download_and_validate_image`; `other`
stands for any further mode (`L`, `CMYK`, ...). -/
inductive PMode
  | RGB | RGBA | LA | P | other
deriving DecidableEq, Repr

/-- A decoded PIL image, abstracted to the data the pipeline inspects:
pixel dimensions and color mode. -/
structure PILImage where
  width : Nat
  height : Nat
  mode : PMode
deriving DecidableEq, Repr

/-- An HTTP response whose `raise_for_status()` did not raise: lowercased
`content-type` header, optional `content-length` header, body bytes. -/
structure HttpResponse where
  contentType : List Char
  contentLength : Option Nat
  body : List Nat
deriving DecidableEq, Repr

/-- `app.py` line 25: `MAX_FILE_SIZE = 5 * 1024 * 1024`. -/
def MAX_FILE_SIZE : Nat := 5 * 1024 * 1024

/-- The body bytes the session would download for a URL (empty when the
request fails; never consulted in that case). -/
def bodyOf (env : List Char → Option HttpResponse) (url : List Char) : List Nat :=
  match env url with
  | some resp => resp.body
  | none => []

/-- `app.py` lines 388-393: downscale when a dimension exceeds 1920,
preserving aspect ratio.  `ratio = min(1920/w, 1920/h)` and Python's
`int()` truncation are modelled exactly over `ℚ` (the float rounding of
CPython can differ from the exact value only below the integer scale). -/
def resizeIfLarge (img : PILImage) : PILImage :=
  let max_dimension : Nat := 1920
  if img.width > max_dimension ∨ img.height > max_dimension then
    let r : ℚ := min ((max_dimension : ℚ) / (img.width : ℚ))
                     ((max_dimension : ℚ) / (img.height : ℚ))
    { img with width := (⌊(img.width : ℚ) * r⌋).toNat,
               height := (⌊(img.height : ℚ) * r⌋).toNat }
  else img

/-- `app.py` lines 395-406: normalize the color mode to opaque RGB.
`RGBA`/`LA`/`P` are flattened onto a white background (pixel content is
abstracted away; the mode becomes `RGB` and the size is unchanged), any
other non-RGB mode is converted directly. -/
def toRGB (img : PILImage) : PILImage :=
  if img.mode = PMode.RGBA ∨ img.mode = PMode.LA ∨ img.mode = PMode.P then
    { img with mode := PMode.RGB }
  else if img.mode ≠ PMode.RGB then { img with mode := PMode.RGB }
  else img

/-- `UniversalImageScraper.download_and_validate_image` (`app.py` lines
352-420).  `env` is the session (`none` = request exception or non-2xx
status), `sha256` the content hash, `imageOpen` PIL decoding (`none` = 
`Image.open` raised).  The streaming loop at lines 369-373 aborts as soon
as the accumulated bytes exceed `MAX_FILE_SIZE`, which is observably the
length test modelled here.  The JPEG re-encode at lines 409-411 is
modelled as the identity on the normalized image descriptor.  Returns the
optional `(url, final_image)` result together with the updated
`seen_hashes` set (kept as a list; an element is appended at most once,
at the single `seen_hashes.add` site on the success path). -/
def download_and_validate_image (env : List Char → Option HttpResponse)
    (sha256 : List Nat → Nat) (imageOpen : List Nat → Option PILImage)
    (seen_hashes : List Nat) (url : List Char) :
    Option (List Char × PILImage) × List Nat :=
  match env url with
  | none => (none, seen_hashes)
  | some resp =>
    if ¬ containsSub "image".toList resp.contentType ∧ ¬ is_image_url url then
      (none, seen_hashes)
    else if (match resp.contentLength with
             | some n => decide (n > MAX_FILE_SIZE)
             | none => false) = true then
      (none, seen_hashes)
    else if resp.body.length > MAX_FILE_SIZE then
      (none, seen_hashes)
    else
      let img_hash := sha256 resp.body
      if img_hash ∈ seen_hashes then (none, seen_hashes)
      else
        match imageOpen resp.body with
        | none => (none, seen_hashes)
        | some img =>
          if img.width < 50 ∨ img.height < 50 then (none, seen_hashes)
          else
            let final := toRGB (resizeIfLarge img)
            (some (url, final), seen_hashes ++ [img_hash])

/-- `app.py` line 22: `IMAGES_PER_PPT = 200`. -/
def IMAGES_PER_PPT : Nat := 200

/-- The output of `create_all_ppts`: either one PowerPoint or a ZIP of
named PowerPoints.  A generated PowerPoint is modelled by the image batch
it is built from (`generate_ppt` serializes exactly its input slice; the
`.pptx` byte serialization itself is abstracted away). -/
inductive PPTOutput
  | single (doc : List (List Char × PILImage))
  | zip (entries : List (List Char × List (List Char × PILImage)))
deriving DecidableEq

/-- The ZIP member name built at `app.py` lines 539-540:
`{domain with dots replaced}_batch_{i}_of_{n}_{timestamp}.pptx`. -/
def ppt_filename (domain : List Char) (batch_num num_batches : Nat)
    (timestamp : List Char) : List Char :=
  domain.map (fun c => if c = '.' then '_' else c)
    ++ "_batch_".toList ++ (Nat.repr batch_num).toList
    ++ "_of_".toList ++ (Nat.repr num_batches).toList
    ++ "_".toList ++ timestamp ++ ".pptx".toList

/-- `create_all_ppts` (`app.py` lines 514-549): split the image list into
batches of `IMAGES_PER_PPT`; one batch is returned as a single document,
several batches are zipped under generated names.  The slice
`images[start:end]` with `end = min(start+200, len)` is
`(images.drop start).take 200`. -/
def create_all_ppts (images : List (List Char × PILImage))
    (domain timestamp : List Char) : PPTOutput :=
  let num_batches := (images.length + IMAGES_PER_PPT - 1) / IMAGES_PER_PPT
  if num_batches = 1 then PPTOutput.single images
  else
    PPTOutput.zip ((List.range num_batches).map (fun batch_idx =>
      (ppt_filename domain (batch_idx + 1) num_batches timestamp,
       (images.drop (batch_idx * IMAGES_PER_PPT)).take IMAGES_PER_PPT)))

/-! ### `urllib.parse` model

`normalize_url` (`app.py` lines 54-58) is
`urlunparse((scheme, netloc, path, params, query, ''))` over
`urlparse(url)`.  The model below translates CPython's `urllib.parse`
(`urlsplit`/`urlparse`/`urlunsplit`/`urlunparse`): leading
WHATWG-C0-control-or-space stripping, tab/CR/LF removal, scheme
recognition and lowercasing, `//netloc` splitting, fragment then query
splitting, and `;params` splitting after the last path slash.  The
bracketed-IPv6-host validation (which raises instead of returning) is not
modelled; `normalize_url` is the total function on inputs that parse. -/

/-- CPython `scheme_chars`: ASCII letters, digits, `+`, `-`, `.`. -/
def isSchemeChar (c : Char) : Bool :=
  (decide (65 ≤ c.toNat) && decide (c.toNat ≤ 90))
  || (decide (97 ≤ c.toNat) && decide (c.toNat ≤ 122))
  || (decide (48 ≤ c.toNat) && decide (c.toNat ≤ 57))
  || c = '+' || c = '-' || c = '.'

/-- Python `c.isascii() and c.isalpha()`: an ASCII letter. -/
def isAsciiAlpha (c : Char) : Bool :=
  (decide (65 ≤ c.toNat) && decide (c.toNat ≤ 90))
  || (decide (97 ≤ c.toNat) && decide (c.toNat ≤ 122))

/-- CPython `uses_netloc`: schemes for which `urlunsplit` re-adds `//`. -/
def uses_netloc : List (List Char) :=
  ["".toList, "ftp".toList, "http".toList, "gopher".toList, "nntp".toList,
   "telnet".toList, "imap".toList, "wais".toList, "file".toList, "mms".toList,
   "https".toList, "shttp".toList, "snews".toList, "prospero".toList,
   "rtsp".toList, "rtsps".toList, "rtspu".toList, "rsync".toList, "svn".toList,
   "svn+ssh".toList, "sftp".toList, "nfs".toList, "git".toList,
   "git+ssh".toList, "ws".toList, "wss".toList]

/-- CPython `uses_params`: schemes for which `urlparse` splits `;params`. -/
def uses_params : List (List Char) :=
  ["".toList, "ftp".toList, "hdl".toList, "prospero".toList, "http".toList,
   "imap".toList, "https".toList, "shttp".toList, "rtsp".toList,
   "rtsps".toList, "rtspu".toList, "sip".toList, "sips".toList, "mms".toList,
   "sftp".toList, "tel".toList]

/-- WHATWG C0-control-or-space (code points `≤ 0x20`). -/
def isC0Space (c : Char) : Bool := decide (c.toNat ≤ 32)

/-- CPython `_UNSAFE_URL_BYTES_TO_REMOVE`: tab, CR, LF. -/
def isTNL (c : Char) : Bool := c = '\t' || c = '\r' || c = '\n'

/-- The sanitizing prelude of `urlsplit`: strip leading
C0-control-or-space, then remove every tab/CR/LF. -/
def stripUnsafe (l : List Char) : List Char :=
  (l.dropWhile isC0Space).filter (fun c => !isTNL c)

/-- `url.split(m, 1)` when `m` occurs, `(url, '')` otherwise: the part
before the first `m` and the part after it. -/
def splitOnFirst (m : Char) (l : List Char) : List Char × List Char :=
  (l.takeWhile (fun c => c != m), (l.dropWhile (fun c => c != m)).tail)

/-- The scheme step of `urlsplit`: `i = url.find(':')`; when `i > 0`, the
first character is an ASCII letter, and every character before the colon
is a scheme character, the scheme is split off and lowercased. -/
def extractScheme (l : List Char) : List Char × List Char :=
  match l.dropWhile (fun c => c != ':') with
  | [] => ([], l)
  | _ :: rest =>
    let pre := l.takeWhile (fun c => c != ':')
    if pre ≠ [] ∧ isAsciiAlpha pre.headI ∧ pre.all isSchemeChar then
      (pre.map Char.toLower, rest)
    else ([], l)

/-- The delimiters of `_splitnetloc`: `/`, `?`, `#`. -/
def isNetlocDelim (c : Char) : Bool := c = '/' || c = '?' || c = '#'

/-- The netloc step of `urlsplit`: when the remaining URL starts with
`//` (`url[:2] == '//'`), the netloc extends to the next `/`, `?` or
`#`. -/
def extractNetloc (l : List Char) : List Char × List Char :=
  if l.take 2 = ['/', '/'] then
    ((l.drop 2).takeWhile (fun c => !isNetlocDelim c),
     (l.drop 2).dropWhile (fun c => !isNetlocDelim c))
  else ([], l)

/-- The suffix of `l` after its last `/` (all of `l` when there is no
`/`): the segment `_splitparams` searches for `;`. -/
def afterLastSlash : List Char → List Char
  | [] => []
  | c :: rest =>
    if ('/' : Char) ∈ rest then afterLastSlash rest
    else if c = '/' then rest else c :: rest

/-- `_splitparams` guarded by `if ';' in url` as in `urlparse`: split
`path;params` at the first `;` after the last `/`. -/
def splitParams (l : List Char) : List Char × List Char :=
  let seg := afterLastSlash l
  if (';' : Char) ∈ seg then
    (l.take (l.length - seg.length) ++ seg.takeWhile (fun c => c != ';'),
     (seg.dropWhile (fun c => c != ';')).tail)
  else (l, [])

/-- The six-component tuple `urlparse` returns. -/
structure UrlComponents where
  scheme : List Char
  netloc : List Char
  path : List Char
  params : List Char
  query : List Char
  fragment : List Char
deriving DecidableEq, Repr

/-- `urllib.parse.urlparse` (with `allow_fragments=True`): sanitize, then
split off scheme, netloc, fragment, and query in CPython's order;
`;params` is split from the path only for a `uses_params` scheme. -/
def urlparse (url : List Char) : UrlComponents :=
  let s := stripUnsafe url
  let sr := extractScheme s
  let nr := extractNetloc sr.2
  let fr := splitOnFirst '#' nr.2
  let qr := splitOnFirst '?' fr.1
  if sr.1 ∈ uses_params ∧ (';' : Char) ∈ qr.1 then
    ⟨sr.1, nr.1, (splitParams qr.1).1, (splitParams qr.1).2, qr.2, fr.2⟩
  else ⟨sr.1, nr.1, qr.1, [], qr.2, fr.2⟩

/-- `urllib.parse.urlunparse` over `urlunsplit`: rejoin `path;params`;
re-add `//netloc` when a netloc exists or the scheme is a `uses_netloc`
scheme and the path does not already begin with `//` (with the
compatibility `/`-prefix fixup); prepend `scheme:`; append `?query` and
`#fragment` when non-empty. -/
def urlunparse (c : UrlComponents) : List Char :=
  let u1 := if c.params ≠ [] then c.path ++ ';' :: c.params else c.path
  let u2 :=
    if c.netloc ≠ [] ∨ (c.scheme ≠ [] ∧ c.scheme ∈ uses_netloc ∧ u1.take 2 ≠ ['/', '/']) then
      '/' :: '/' :: (c.netloc ++
        (if u1 ≠ [] ∧ u1.head? ≠ some '/' then '/' :: u1 else u1))
    else u1
  let u3 := if c.scheme ≠ [] then c.scheme ++ ':' :: u2 else u2
  let u4 := if c.query ≠ [] then u3 ++ '?' :: c.query else u3
  if c.fragment ≠ [] then u4 ++ '#' :: c.fragment else u4

/-- `UniversalImageScraper.normalize_url` (`app.py` lines 54-58):
reassemble the parse with an empty fragment. -/
def normalize_url (url : List Char) : List Char :=
  let parsed := urlparse url
  urlunparse { parsed with fragment := [] }

/-- The shape invariants every `urlparse` output satisfies (stated on the
five non-fragment components).  They drive the round-trip analysis of
`normalize_url`: lowercased letter-led scheme, delimiter-free netloc,
`?`/`#`-free path whose final segment carries no `;` for a `uses_params`
scheme, `/`-, `?`- and `#`-free params (empty unless the scheme uses
them), `#`-free query, no stealable scheme or stray leading character in
a bare path, a netloc only next to an empty or `/`-led path, and no
tab/CR/LF anywhere. -/
def goodParse (p : UrlComponents) : Prop :=
  (p.scheme ≠ [] → isAsciiAlpha p.scheme.headI = true ∧
    p.scheme.all isSchemeChar = true ∧ p.scheme.map Char.toLower = p.scheme) ∧
  (∀ c ∈ p.netloc, isNetlocDelim c = false) ∧
  (∀ c ∈ p.path, c ≠ '?' ∧ c ≠ '#') ∧
  (p.scheme ∈ uses_params → (';' : Char) ∉ afterLastSlash p.path) ∧
  (p.scheme ∉ uses_params → p.params = []) ∧
  (∀ c ∈ p.params, c ≠ '/' ∧ c ≠ '?' ∧ c ≠ '#') ∧
  (('#' : Char) ∉ p.query) ∧
  (p.scheme = [] → p.netloc = [] → extractScheme p.path = ([], p.path)) ∧
  (p.netloc ≠ [] → p.path = [] ∨ ∃ t, p.path = '/' :: t) ∧
  (p.netloc ≠ [] → p.path = [] → p.params = []) ∧
  (∀ c ∈ p.scheme ++ p.netloc ++ p.path ++ p.params ++ p.query, isTNL c = false) ∧
  (p.scheme = [] → p.netloc = [] → p.path ≠ [] → isC0Space p.path.headI = false)

/-- What one crawled page yields once fetched and parsed: the `<a href>`
targets resolved against the page URL (`urljoin` is inside the
abstracted HTML parsing), and the image URLs that
`extract_all_images` / `extract_images_aggressive` produce for the page.
`env url = none` models a request exception or a non-2xx status. -/
structure Page where
  links : List (List Char)
  images : List (List Char)

/-- The mutable crawl state of `UniversalImageScraper.crawl_website`:
frontier `to_visit` (a set, kept as a duplicate-free list), `visited_urls`,
`page_count`, the accumulated `total_images`, plus a ghost log `fetched`
recording each URL the session actually requests, in request order. -/
structure CrawlState where
  toVisit : List (List Char)
  visited : List (List Char)
  pageCount : Nat
  fetched : List (List Char)
  totalImages : List (List Char)

/-- The body of the inner `for url in current_batch` loop of
`crawl_website` (`app.py` lines 304-345).  `valid` abstracts
`is_valid_url` (same-domain membership); the filter mirrors
`extract_all_links` line 78: keep normalized links that are in-domain and
not yet visited.  The `except` arm only writes a status line, so a failed
fetch (`env url = none`) still consumes the `visited_urls.add` and
`page_count += 1` executed before the request. -/
def crawl_page (env : List Char → Option Page) (valid : List Char → Bool)
    (st : CrawlState) (url : List Char) : CrawlState :=
  if url ∈ st.visited then st
  else
    let st1 : CrawlState :=
      { st with visited := url :: st.visited, pageCount := st.pageCount + 1,
                fetched := st.fetched ++ [url] }
    match env url with
    | none => st1
    | some page =>
      let newLinks := (page.links.map normalize_url).filter
        (fun l => valid l && decide (l ∉ st1.visited))
      { st1 with
        toVisit := newLinks.foldl
          (fun tv l => if l ∈ tv then tv else tv ++ [l]) st1.toVisit,
        totalImages := st1.totalImages ++ page.images }

/-- `UniversalImageScraper.crawl_website` (`app.py` lines 292-350): while
the frontier is non-empty and fewer than 1000 pages were fetched, take a
batch of up to 10 frontier URLs, remove them from the frontier, and
process each.  Termination is by the lexicographic measure
`(1000 - page_count, |to_visit|)`: a round that fetches nothing removes
its batch from the frontier and adds nothing, a round that fetches
increases `page_count`. -/
def crawl_website (env : List Char → Option Page) (valid : List Char → Bool)
    (st : CrawlState) : CrawlState :=
  if st.toVisit = [] ∨ st.pageCount ≥ 1000 then st
  else
    let batch := st.toVisit.take 10
    let st1 : CrawlState := { st with toVisit := st.toVisit.drop 10 }
    crawl_website env valid (batch.foldl (crawl_page env valid) st1)
termination_by (1000 - st.pageCount, st.toVisit.length)
decreasing_by
  rename_i hcond
  have hmono : ∀ (b : List (List Char)) (s : CrawlState),
      s.pageCount ≤ (b.foldl (crawl_page env valid) s).pageCount := by
    intro b
    induction b with
    | nil => intro s; exact Nat.le_refl _
    | cons u rest ih =>
      intro s
      refine Nat.le_trans ?_ (ih (crawl_page env valid s u))
      unfold crawl_page
      split
      · exact Nat.le_refl _
      · split <;> exact Nat.le_succ _
  have hstep : ∀ (b : List (List Char)) (s : CrawlState),
      b.foldl (crawl_page env valid) s = s ∨
      s.pageCount < (b.foldl (crawl_page env valid) s).pageCount := by
    intro b
    induction b with
    | nil => intro s; exact Or.inl rfl
    | cons u rest ih =>
      intro s
      by_cases hv : u ∈ s.visited
      · have he : crawl_page env valid s u = s := by
          unfold crawl_page; rw [if_pos hv]
        rw [List.foldl_cons, he]
        exact ih s
      · right
        have hlt : s.pageCount < (crawl_page env valid s u).pageCount := by
          unfold crawl_page
          rw [if_neg hv]
          split <;> exact Nat.lt_succ_self _
        rw [List.foldl_cons]
        exact Nat.lt_of_lt_of_le hlt (hmono rest _)
  push_neg at hcond
  rcases hstep (st.toVisit.take 10) { st with toVisit := st.toVisit.drop 10 } with he | hlt
  · rw [he]
    apply Prod.Lex.right
    have hne : st.toVisit ≠ [] := hcond.1
    have : 0 < st.toVisit.length := List.length_pos.mpr hne
    simp only [List.length_drop]
    omega
  · apply Prod.Lex.left
    have h2 : st.pageCount < 1000 := hcond.2
    have h3 : ({ st with toVisit := st.toVisit.drop 10 } : CrawlState).pageCount
        = st.pageCount := rfl
    rw [h3] at hlt
    omega

/-! ### Filtering stage: lemmas and claims C3, C6 -/

theorem is_image_url_nil : is_image_url [] = false := by decide

theorem extract_valid_images_aux_mem (imgs : List (List Char)) :
    ∀ (seen : List (List Char)) (u : List Char),
      u ∈ extract_valid_images_aux imgs seen ↔
        (u ∈ imgs ∧ is_image_url u = true ∧ u ∉ seen) := by
  induction imgs with
  | nil =>
    intro seen u
    rw [show extract_valid_images_aux [] seen = [] from rfl]
    simp
  | cons img rest ih =>
    intro seen u
    rw [show extract_valid_images_aux (img :: rest) seen
          = if img ≠ [] ∧ img ∉ seen then
              (if is_image_url img then
                img :: extract_valid_images_aux rest (img :: seen)
               else extract_valid_images_aux rest seen)
            else extract_valid_images_aux rest seen from rfl]
    by_cases h1 : img ≠ [] ∧ img ∉ seen
    · by_cases h2 : is_image_url img
      · rw [if_pos h1, if_pos h2]
        simp only [List.mem_cons, ih]
        constructor
        · rintro (rfl | ⟨hr, hv, hs⟩)
          · exact ⟨Or.inl rfl, h2, h1.2⟩
          · push_neg at hs
            exact ⟨Or.inr hr, hv, hs.2⟩
        · rintro ⟨hor, hv, hs⟩
          by_cases he : u = img
          · exact Or.inl he
          · rcases hor with rfl | hr
            · exact Or.inl rfl
            · refine Or.inr ⟨hr, hv, ?_⟩
              simp [he, hs]
      · rw [if_pos h1, if_neg h2, ih]
        simp only [List.mem_cons]
        constructor
        · rintro ⟨hr, hv, hs⟩
          exact ⟨Or.inr hr, hv, hs⟩
        · rintro ⟨hor, hv, hs⟩
          rcases hor with rfl | hr
          · exact absurd hv h2
          · exact ⟨hr, hv, hs⟩
    · rw [if_neg h1, ih]
      simp only [List.mem_cons]
      push_neg at h1
      constructor
      · rintro ⟨hr, hv, hs⟩
        exact ⟨Or.inr hr, hv, hs⟩
      · rintro ⟨hor, hv, hs⟩
        rcases hor with rfl | hr
        · by_cases hn : u = []
          · rw [hn, is_image_url_nil] at hv; cases hv
          · exact absurd (h1 hn) hs
        · exact ⟨hr, hv, hs⟩

theorem extract_valid_images_mem (imgs : List (List Char)) (u : List Char) :
    u ∈ extract_valid_images imgs ↔ (u ∈ imgs ∧ is_image_url u = true) := by
  rw [extract_valid_images, extract_valid_images_aux_mem]
  simp

/-- C3 (counterexample): on the spec's scenario input, the code's
filtering stage keeps the header logo candidate: its context is never
consulted and `a.com/logo.png` passes `is_image_url` by extension, so the
output is not `["a.com/sofa-product.jpg"]`. -/
theorem filter_candidates_header_logo_kept :
    filter_candidates [("a.com/logo.png".toList, "header".toList),
                       ("a.com/sofa-product.jpg".toList, "product-card".toList)]
      ≠ ["a.com/sofa-product.jpg".toList] := by decide

/-- C3 (amended): the filtering stage of `extract_all_images` applies no
DOM-context rule at all — a candidate's URL is kept (once) exactly when
`is_image_url` accepts it, whatever its context; on the scenario input
both URLs are kept, in order. -/
theorem filter_candidates_spec :
    (∀ (cands : List (List Char × List Char)) (u : List Char),
      u ∈ filter_candidates cands ↔
        ((∃ ctx, (u, ctx) ∈ cands) ∧ is_image_url u = true)) ∧
    filter_candidates [("a.com/logo.png".toList, "header".toList),
                       ("a.com/sofa-product.jpg".toList, "product-card".toList)]
      = ["a.com/logo.png".toList, "a.com/sofa-product.jpg".toList] := by
  constructor
  · intro cands u
    rw [filter_candidates, extract_valid_images_mem]
    constructor
    · rintro ⟨hm, hv⟩
      rcases List.mem_map.mp hm with ⟨⟨u', ctx⟩, hin, rfl⟩
      exact ⟨⟨ctx, hin⟩, hv⟩
    · rintro ⟨⟨ctx, hin⟩, hv⟩
      exact ⟨List.mem_map.mpr ⟨(u, ctx), hin, rfl⟩, hv⟩
  · decide

/-- C6 (counterexample): `http://x.com/cart-item` contains the
reject-keyword `cart` and the accept-keyword `item`, yet the filter drops
it — there is no accept-overrides-reject rule in the code; retention is
decided solely by `is_image_url`, which rejects this URL. -/
theorem reject_accept_url_dropped :
    containsSub "cart".toList "http://x.com/cart-item".toList = true ∧
    containsSub "item".toList "http://x.com/cart-item".toList = true ∧
    extract_valid_images ["http://x.com/cart-item".toList] = [] := by decide

/-- C6 (amended): the code has no reject-keyword / accept-keyword logic;
a URL is retained exactly when the permissive `is_image_url` accepts it.
A URL containing both a reject-keyword and an accept-keyword may be
dropped (`http://x.com/cart-item`) or kept (`http://x.com/cart-item.jpg`)
depending only on that test. -/
theorem retention_by_is_image_url_only :
    (∀ u : List Char,
      extract_valid_images [u] = if is_image_url u then [u] else []) ∧
    (containsSub "cart".toList "http://x.com/cart-item.jpg".toList = true ∧
     containsSub "item".toList "http://x.com/cart-item.jpg".toList = true ∧
     extract_valid_images ["http://x.com/cart-item.jpg".toList]
       = ["http://x.com/cart-item.jpg".toList]) := by
  constructor
  · intro u
    by_cases hu : u = []
    · subst hu; decide
    · rw [show extract_valid_images [u] = extract_valid_images_aux [u] [] from rfl]
      rw [show extract_valid_images_aux [u] []
            = if u ≠ [] ∧ u ∉ ([] : List (List Char)) then
                (if is_image_url u then u :: extract_valid_images_aux [] [u]
                 else extract_valid_images_aux [] [])
              else extract_valid_images_aux [] [] from rfl]
      rw [if_pos ⟨hu, by simp⟩,
          show extract_valid_images_aux [] [u] = [] from rfl,
          show extract_valid_images_aux [] [] = [] from rfl]
  · decide

/-! ### Download-validate-dedupe engine: lemmas and claims C1, C4, C5, C9, C10 -/

theorem dl_cases (env : List Char → Option HttpResponse) (sha256 : List Nat → Nat)
    (imageOpen : List Nat → Option PILImage) (seen : List Nat) (url : List Char) :
    ((download_and_validate_image env sha256 imageOpen seen url).1 = none ∧
     (download_and_validate_image env sha256 imageOpen seen url).2 = seen) ∨
    (∃ resp img,
      env url = some resp ∧
      imageOpen resp.body = some img ∧
      sha256 resp.body ∉ seen ∧
      50 ≤ img.width ∧ 50 ≤ img.height ∧
      resp.body.length ≤ MAX_FILE_SIZE ∧
      (containsSub "image".toList resp.contentType = true ∨ is_image_url url = true) ∧
      (download_and_validate_image env sha256 imageOpen seen url).1
        = some (url, toRGB (resizeIfLarge img)) ∧
      (download_and_validate_image env sha256 imageOpen seen url).2
        = seen ++ [sha256 resp.body]) := by
  unfold download_and_validate_image
  cases henv : env url with
  | none => exact Or.inl ⟨rfl, rfl⟩
  | some resp =>
    dsimp only
    by_cases h1 : ¬ containsSub "image".toList resp.contentType ∧ ¬ is_image_url url
    · rw [if_pos h1]; exact Or.inl ⟨rfl, rfl⟩
    · rw [if_neg h1]
      by_cases h2 : (match resp.contentLength with
                     | some n => decide (n > MAX_FILE_SIZE)
                     | none => false) = true
      · rw [if_pos h2]; exact Or.inl ⟨rfl, rfl⟩
      · rw [if_neg h2]
        by_cases h3 : resp.body.length > MAX_FILE_SIZE
        · rw [if_pos h3]; exact Or.inl ⟨rfl, rfl⟩
        · rw [if_neg h3]
          by_cases h4 : sha256 resp.body ∈ seen
          · rw [if_pos h4]; exact Or.inl ⟨rfl, rfl⟩
          · rw [if_neg h4]
            cases himg : imageOpen resp.body with
            | none => exact Or.inl ⟨rfl, rfl⟩
            | some img =>
              dsimp only
              by_cases h5 : img.width < 50 ∨ img.height < 50
              · rw [if_pos h5]; exact Or.inl ⟨rfl, rfl⟩
              · rw [if_neg h5]
                push_neg at h3 h5
                refine Or.inr ⟨resp, img, rfl, himg, h4, h5.1, h5.2, h3, ?_, rfl, rfl⟩
                rcases not_and_or.mp h1 with h | h
                · exact Or.inl (not_not.mp h)
                · exact Or.inr (not_not.mp h)

/-- C9: the seen-hash set is mutated atomically with success.  When
`download_and_validate_image` drops the URL and returns `None` — network
failure, oversized body, duplicate hash, decode failure, too-small image —
`seen_hashes` is unchanged; the content hash of the fetched bytes is
inserted exactly when a `(url, bytes)` result is returned, and it was not
in the set before. -/
theorem download_hash_inserted_iff_success (env : List Char → Option HttpResponse)
    (sha256 : List Nat → Nat) (imageOpen : List Nat → Option PILImage)
    (seen : List Nat) (url : List Char) :
    ((download_and_validate_image env sha256 imageOpen seen url).1 = none →
      (download_and_validate_image env sha256 imageOpen seen url).2 = seen) ∧
    (∀ r, (download_and_validate_image env sha256 imageOpen seen url).1 = some r →
      (download_and_validate_image env sha256 imageOpen seen url).2
        = seen ++ [sha256 (bodyOf env url)] ∧
      sha256 (bodyOf env url) ∉ seen) := by
  rcases dl_cases env sha256 imageOpen seen url with
    ⟨hn, hs⟩ | ⟨resp, img, henv, _, hfresh, _, _, _, _, hsome, hstate⟩
  · refine ⟨fun _ => hs, fun r hr => ?_⟩
    rw [hn] at hr
    cases hr
  · refine ⟨fun hn => ?_, fun r _ => ?_⟩
    · rw [hsome] at hn
      cases hn
    · rw [bodyOf, henv]
      exact ⟨hstate, hfresh⟩

/-- Witness for C9 at a concrete successful download. -/
theorem download_hash_inserted_iff_success_witness :
    (download_and_validate_image
        (fun _ => some ⟨"image/png".toList, none, [1, 2, 3]⟩)
        List.length (fun _ => some ⟨60, 60, PMode.RGB⟩)
        [] "http://a/b.png".toList).2
      = [] ++ [List.length (bodyOf
          (fun _ => some ⟨"image/png".toList, none, [1, 2, 3]⟩)
          "http://a/b.png".toList)] ∧
    List.length (bodyOf
        (fun _ => some ⟨"image/png".toList, none, [1, 2, 3]⟩)
        "http://a/b.png".toList) ∉ ([] : List Nat) :=
  (download_hash_inserted_iff_success
      (fun _ => some ⟨"image/png".toList, none, [1, 2, 3]⟩)
      List.length (fun _ => some ⟨60, 60, PMode.RGB⟩)
      [] "http://a/b.png".toList).2
    ("http://a/b.png".toList, ⟨60, 60, PMode.RGB⟩) (by decide)

/-- C10: one small dimension suffices for rejection — when every decode
of the fetched bytes is below 50 pixels wide or below 50 pixels tall the
URL is dropped, and every returned image decoded with width ≥ 50 and
height ≥ 50. -/
theorem small_dimension_dropped (env : List Char → Option HttpResponse)
    (sha256 : List Nat → Nat) (imageOpen : List Nat → Option PILImage)
    (seen : List Nat) (url : List Char) :
    ((∀ img, imageOpen (bodyOf env url) = some img →
        img.width < 50 ∨ img.height < 50) →
      (download_and_validate_image env sha256 imageOpen seen url).1 = none) ∧
    (∀ r, (download_and_validate_image env sha256 imageOpen seen url).1 = some r →
      ∃ img, imageOpen (bodyOf env url) = some img ∧
        50 ≤ img.width ∧ 50 ≤ img.height) := by
  rcases dl_cases env sha256 imageOpen seen url with
    ⟨hn, _⟩ | ⟨resp, img, henv, himg, _, hw, hh, _, _, hsome, _⟩
  · refine ⟨fun _ => hn, fun r hr => ?_⟩
    rw [hn] at hr
    cases hr
  · refine ⟨fun hsmall => ?_, fun r _ => ?_⟩
    · have hb : bodyOf env url = resp.body := by rw [bodyOf, henv]
      rcases hsmall img (by rw [hb]; exact himg) with h | h
      · omega
      · omega
    · exact ⟨img, by rw [bodyOf, henv]; exact himg, hw, hh⟩

/-- Witness for C10: a 10-by-500 decode is dropped; a 60-by-60 decode is
returned and indeed measured at least 50 on both axes. -/
theorem small_dimension_dropped_witness :
    (download_and_validate_image
        (fun _ => some ⟨"image/png".toList, none, [1, 2, 3]⟩)
        List.length (fun _ => some ⟨10, 500, PMode.RGB⟩)
        [] "http://a/b.png".toList).1 = none ∧
    (∃ img, (fun _ => some (⟨60, 60, PMode.RGB⟩ : PILImage))
        (bodyOf (fun _ => some ⟨"image/png".toList, none, [1, 2, 3]⟩)
          "http://a/b.png".toList) = some img ∧
      50 ≤ img.width ∧ 50 ≤ img.height) := by
  constructor
  · apply (small_dimension_dropped
      (fun _ => some ⟨"image/png".toList, none, [1, 2, 3]⟩)
      List.length (fun _ => some ⟨10, 500, PMode.RGB⟩)
      [] "http://a/b.png".toList).1
    intro img h
    have h2 : (⟨10, 500, PMode.RGB⟩ : PILImage) = img := Option.some.inj h
    rw [← h2]
    left
    decide
  · exact (small_dimension_dropped
      (fun _ => some ⟨"image/png".toList, none, [1, 2, 3]⟩)
      List.length (fun _ => some ⟨60, 60, PMode.RGB⟩)
      [] "http://a/b.png".toList).2
      ("http://a/b.png".toList, ⟨60, 60, PMode.RGB⟩) (by decide)

theorem toRGB_spec (img : PILImage) :
    (toRGB img).mode = PMode.RGB ∧ (toRGB img).width = img.width ∧
    (toRGB img).height = img.height := by
  unfold toRGB
  split_ifs with h1 h2
  · exact ⟨rfl, rfl, rfl⟩
  · exact ⟨rfl, rfl, rfl⟩
  · exact ⟨not_not.mp h2, rfl, rfl⟩

theorem floor_scale_le (d : Nat) (q : ℚ) (h : q ≤ (1920 : ℚ) / (d : ℚ)) :
    (⌊(d : ℚ) * q⌋).toNat ≤ 1920 := by
  rcases Nat.eq_zero_or_pos d with rfl | hd
  · norm_num
  · have hd' : (0 : ℚ) < (d : ℚ) := by exact_mod_cast hd
    have h1 : (d : ℚ) * q ≤ (d : ℚ) * ((1920 : ℚ) / (d : ℚ)) :=
      mul_le_mul_of_nonneg_left h (le_of_lt hd')
    have h2 : (d : ℚ) * ((1920 : ℚ) / (d : ℚ)) = 1920 := by
      field_simp
    have h3 : (⌊(d : ℚ) * q⌋ : ℤ) ≤ 1920 := by
      calc ⌊(d : ℚ) * q⌋ ≤ ⌊(1920 : ℚ)⌋ := Int.floor_le_floor (h2 ▸ h1)
        _ = 1920 := by norm_num
    omega

theorem resizeIfLarge_le (img : PILImage) :
    (resizeIfLarge img).width ≤ 1920 ∧ (resizeIfLarge img).height ≤ 1920 := by
  unfold resizeIfLarge
  dsimp only
  split_ifs with h
  · exact ⟨floor_scale_le img.width _ (min_le_left _ _),
           floor_scale_le img.height _ (min_le_right _ _)⟩
  · push_neg at h
    exact h

/-- C5: every pair returned by `download_and_validate_image` carries an
image payload whose color mode is opaque RGB and whose dimensions are at
most the configured maximum of 1920 pixels. -/
theorem validated_image_rgb_and_bounded (env : List Char → Option HttpResponse)
    (sha256 : List Nat → Nat) (imageOpen : List Nat → Option PILImage)
    (seen : List Nat) (url : List Char) (r : List Char × PILImage)
    (hr : (download_and_validate_image env sha256 imageOpen seen url).1 = some r) :
    r.2.mode = PMode.RGB ∧ r.2.width ≤ 1920 ∧ r.2.height ≤ 1920 := by
  rcases dl_cases env sha256 imageOpen seen url with
    ⟨hn, _⟩ | ⟨resp, img, _, _, _, _, _, _, _, hsome, _⟩
  · rw [hn] at hr
    cases hr
  · rw [hsome] at hr
    have hr2 : r.2 = toRGB (resizeIfLarge img) := by
      rw [← Option.some.inj hr]
    rw [hr2]
    rcases toRGB_spec (resizeIfLarge img) with ⟨hm, hw, hh⟩
    rcases resizeIfLarge_le img with ⟨hw2, hh2⟩
    exact ⟨hm, by rw [hw]; exact hw2, by rw [hh]; exact hh2⟩

/-- Witness for C5 at a concrete successful download of an RGBA image. -/
theorem validated_image_rgb_and_bounded_witness :
    (("http://a/pic.png".toList, (⟨100, 80, PMode.RGB⟩ : PILImage)) :
        List Char × PILImage).2.mode = PMode.RGB ∧
    (("http://a/pic.png".toList, (⟨100, 80, PMode.RGB⟩ : PILImage)) :
        List Char × PILImage).2.width ≤ 1920 ∧
    (("http://a/pic.png".toList, (⟨100, 80, PMode.RGB⟩ : PILImage)) :
        List Char × PILImage).2.height ≤ 1920 :=
  validated_image_rgb_and_bounded
    (fun _ => some ⟨"image/png".toList, some 4, [7, 7, 7, 7]⟩)
    List.length (fun _ => some ⟨100, 80, PMode.RGBA⟩)
    [] "http://a/pic.png".toList
    ("http://a/pic.png".toList, ⟨100, 80, PMode.RGB⟩) (by decide)

/-- C4 (counterexample): a 300-by-300 decode passes validation and is
returned — there is no square-minimum threshold of 400 in the code; the
only size rule is the 50-pixel minimum per dimension. -/
theorem square_300_not_dropped :
    (download_and_validate_image
        (fun _ => some ⟨"image/png".toList, none, [1, 2, 3]⟩)
        List.length (fun _ => some ⟨300, 300, PMode.RGB⟩)
        [] "http://a/b.png".toList).1
      = some ("http://a/b.png".toList, ⟨300, 300, PMode.RGB⟩) := by decide

/-- C4 (amended): the only dimension rule in `download_and_validate_image`
is `width < 50 or height < 50`; any decoded image with both dimensions at
least 50 that passes the network, content-type, size and hash gates is
returned (resized and RGB-normalized).  No separate square threshold
exists, so a 300-by-300 image is kept. -/
theorem min_dimension_rule_only (env : List Char → Option HttpResponse)
    (sha256 : List Nat → Nat) (imageOpen : List Nat → Option PILImage)
    (seen : List Nat) (url : List Char) (resp : HttpResponse) (img : PILImage)
    (henv : env url = some resp)
    (hct : containsSub "image".toList resp.contentType = true ∨ is_image_url url = true)
    (hlen : ∀ n, resp.contentLength = some n → n ≤ MAX_FILE_SIZE)
    (hbody : resp.body.length ≤ MAX_FILE_SIZE)
    (hhash : sha256 resp.body ∉ seen)
    (himg : imageOpen resp.body = some img)
    (hw : 50 ≤ img.width) (hh : 50 ≤ img.height) :
    (download_and_validate_image env sha256 imageOpen seen url).1
      = some (url, toRGB (resizeIfLarge img)) := by
  unfold download_and_validate_image
  rw [henv]
  dsimp only
  rw [if_neg (by
    rintro ⟨hc1, hc2⟩
    rcases hct with h | h
    · exact hc1 h
    · exact hc2 h)]
  rw [if_neg (by
    cases hcl : resp.contentLength with
    | none => simp
    | some n =>
      have := hlen n hcl
      simp only [decide_eq_true_eq]
      omega)]
  rw [if_neg (by omega)]
  rw [if_neg hhash, himg]
  dsimp only
  rw [if_neg (by omega)]

/-- Witness for C4's amended rule at a 300-by-301 decode. -/
theorem min_dimension_rule_only_witness :
    (download_and_validate_image
        (fun _ => some ⟨"image/jpeg".toList, some 2, [9, 9]⟩)
        List.length (fun _ => some ⟨300, 301, PMode.RGBA⟩)
        [] "http://shop.example/p.jpg".toList).1
      = some ("http://shop.example/p.jpg".toList,
              toRGB (resizeIfLarge ⟨300, 301, PMode.RGBA⟩)) :=
  min_dimension_rule_only
    (fun _ => some ⟨"image/jpeg".toList, some 2, [9, 9]⟩)
    List.length (fun _ => some ⟨300, 301, PMode.RGBA⟩)
    [] "http://shop.example/p.jpg".toList
    ⟨"image/jpeg".toList, some 2, [9, 9]⟩ ⟨300, 301, PMode.RGBA⟩
    rfl (by decide)
    (fun n h => by
      have h2 : (2 : Nat) = n := Option.some.inj h
      rw [← h2]
      decide)
    (by decide) (by decide) rfl (by decide) (by decide)

/-! ### Deck batching: claim C2 -/

theorem batches_flatten {α : Type} :
    ∀ (k : Nat) (l : List α), l.length ≤ 200 * k →
      ((List.range k).map (fun i => (l.drop (i * 200)).take 200)).flatten = l := by
  intro k
  induction k with
  | zero =>
    intro l hl
    simp at hl
    simp [hl]
  | succ k ih =>
    intro l hl
    rw [List.range_succ_eq_map, List.map_cons, List.map_map, List.flatten_cons]
    have hdrop : ∀ i : Nat, l.drop ((i + 1) * 200) = (l.drop 200).drop (i * 200) := by
      intro i
      rw [List.drop_drop]
      congr 1
      ring
    have hmap : (List.range k).map ((fun i => (l.drop (i * 200)).take 200) ∘ Nat.succ)
        = (List.range k).map (fun i => ((l.drop 200).drop (i * 200)).take 200) := by
      apply List.map_congr_left
      intro i _
      simp only [Function.comp]
      rw [show Nat.succ i = i + 1 from rfl, hdrop i]
    rw [hmap, ih (l.drop 200) (by
      rw [List.length_drop]
      omega)]
    simp

/-- C2: for a non-empty image list of length N, `create_all_ppts` with
batch size 200 forms `ceil(N/200)` contiguous batches whose concatenation
is the input; every batch has 200 images except the last, which has
`N - 200*(ceil(N/200)-1)`; one batch yields a single document and more
than one yields a ZIP with exactly that many named entries. -/
theorem create_all_ppts_spec (images : List (List Char × PILImage))
    (domain timestamp : List Char) (h : images ≠ []) :
    IMAGES_PER_PPT = 200 ∧
    ((images.length + 200 - 1) / 200 = 1 ↔ images.length ≤ 200) ∧
    (images.length ≤ 200 →
      create_all_ppts images domain timestamp = PPTOutput.single images) ∧
    (200 < images.length →
      ∃ es, create_all_ppts images domain timestamp = PPTOutput.zip es ∧
        es.length = (images.length + 200 - 1) / 200 ∧
        (es.map (fun e => e.2)).flatten = images ∧
        (∀ i (hi : i < es.length),
          (es.get ⟨i, hi⟩).2.length
            = if i + 1 = es.length
              then images.length - 200 * (es.length - 1) else 200) ∧
        (∀ i (hi : i < es.length),
          (es.get ⟨i, hi⟩).1
            = ppt_filename domain (i + 1) es.length timestamp)) := by
  have hN : 1 ≤ images.length := List.length_pos.mpr h
  refine ⟨rfl, by omega, ?_, ?_⟩
  · intro hle
    have h1 : (images.length + 200 - 1) / 200 = 1 := by omega
    simp only [create_all_ppts, IMAGES_PER_PPT]
    rw [h1, if_pos rfl]
  · intro hgt
    have h1 : (images.length + 200 - 1) / 200 ≠ 1 := by omega
    simp only [create_all_ppts, IMAGES_PER_PPT]
    rw [if_neg h1]
    refine ⟨_, rfl, by simp, ?_, ?_, ?_⟩
    · rw [List.map_map]
      have hcomp : ((fun e : List Char × List (List Char × PILImage) => e.2) ∘
          (fun batch_idx =>
            (ppt_filename domain (batch_idx + 1)
              ((images.length + 200 - 1) / 200) timestamp,
             (images.drop (batch_idx * 200)).take 200)))
          = fun i => (images.drop (i * 200)).take 200 := by
        funext i
        rfl
      rw [hcomp]
      exact batches_flatten _ images (by omega)
    · intro i hi
      have hi2 : i < (images.length + 200 - 1) / 200 := by
        simpa using hi
      rw [List.get_map, List.get_range]
      simp only [List.length_map, List.length_range]
      rw [List.length_take, List.length_drop]
      by_cases hlast : i + 1 = (images.length + 200 - 1) / 200
      · rw [if_pos hlast]
        omega
      · rw [if_neg hlast]
        omega
    · intro i hi
      rw [List.get_map, List.get_range]
      simp only [List.length_map, List.length_range]

/-- Witness for C2 at the spec's 250-image scenario: two ZIP entries. -/
theorem create_all_ppts_spec_witness :
    ∃ es, create_all_ppts
        (List.replicate 250 ("u".toList, (⟨60, 60, PMode.RGB⟩ : PILImage)))
        "a.com".toList "ts".toList = PPTOutput.zip es ∧ es.length = 2 := by
  have hlen250 :
      (List.replicate 250 ("u".toList, (⟨60, 60, PMode.RGB⟩ : PILImage))).length
        = 250 := List.length_replicate _ _
  have hne : List.replicate 250 ("u".toList, (⟨60, 60, PMode.RGB⟩ : PILImage)) ≠ [] := by
    intro hh
    rw [hh] at hlen250
    cases hlen250
  have h := (create_all_ppts_spec _ "a.com".toList "ts".toList hne).2.2.2
    (by rw [hlen250]; omega)
  rcases h with ⟨es, hzip, hlen, _⟩
  refine ⟨es, hzip, ?_⟩
  rw [hlen, hlen250]

/-! ### Crawler: claim C7 -/

theorem crawl_page_visited_mono (env : List Char → Option Page)
    (valid : List Char → Bool) (st : CrawlState) (u : List Char) :
    ∀ x ∈ st.visited, x ∈ (crawl_page env valid st u).visited := by
  unfold crawl_page
  by_cases hv : u ∈ st.visited
  · rw [if_pos hv]
    exact fun x hx => hx
  · rw [if_neg hv]
    cases henv : env u with
    | none => exact fun x hx => List.mem_cons_of_mem _ hx
    | some page => exact fun x hx => List.mem_cons_of_mem _ hx

theorem crawl_page_inv (env : List Char → Option Page)
    (valid : List Char → Bool) (st : CrawlState) (u : List Char)
    (hInv : st.fetched.Nodup ∧ ∀ x ∈ st.fetched, x ∈ st.visited) :
    (crawl_page env valid st u).fetched.Nodup ∧
      ∀ x ∈ (crawl_page env valid st u).fetched,
        x ∈ (crawl_page env valid st u).visited := by
  have key : ∀ (s1 : CrawlState), s1.fetched = st.fetched ++ [u] →
      s1.visited = u :: st.visited → u ∉ st.visited →
      s1.fetched.Nodup ∧ ∀ x ∈ s1.fetched, x ∈ s1.visited := by
    intro s1 hf hvis hu
    constructor
    · rw [hf]
      refine List.Nodup.append hInv.1 (List.nodup_singleton u) ?_
      intro a ha hb
      rw [List.mem_singleton] at hb
      subst hb
      exact hu (hInv.2 a ha)
    · intro x hx
      rw [hf] at hx
      rw [hvis]
      rcases List.mem_append.mp hx with h | h
      · exact List.mem_cons_of_mem _ (hInv.2 x h)
      · rw [List.mem_singleton] at h
        subst h
        exact List.mem_cons_self _ _
  unfold crawl_page
  by_cases hv : u ∈ st.visited
  · rw [if_pos hv]
    exact hInv
  · rw [if_neg hv]
    cases henv : env u with
    | none => exact key _ rfl rfl hv
    | some page => exact key _ rfl rfl hv

theorem crawl_fold_visited_mono (env : List Char → Option Page)
    (valid : List Char → Bool) :
    ∀ (batch : List (List Char)) (st : CrawlState),
      ∀ x ∈ st.visited, x ∈ (batch.foldl (crawl_page env valid) st).visited := by
  intro batch
  induction batch with
  | nil => exact fun st x hx => hx
  | cons u rest ih =>
    intro st x hx
    rw [List.foldl_cons]
    exact ih _ x (crawl_page_visited_mono env valid st u x hx)

theorem crawl_fold_inv (env : List Char → Option Page)
    (valid : List Char → Bool) :
    ∀ (batch : List (List Char)) (st : CrawlState),
      (st.fetched.Nodup ∧ ∀ x ∈ st.fetched, x ∈ st.visited) →
      ((batch.foldl (crawl_page env valid) st).fetched.Nodup ∧
       ∀ x ∈ (batch.foldl (crawl_page env valid) st).fetched,
         x ∈ (batch.foldl (crawl_page env valid) st).visited) := by
  intro batch
  induction batch with
  | nil => exact fun st h => h
  | cons u rest ih =>
    intro st h
    rw [List.foldl_cons]
    exact ih _ (crawl_page_inv env valid st u h)

/-- C7: `crawl_website` terminates for every seed (it is a total function
of its state, by the lexicographic measure `(1000 - page_count,
|to_visit|)`); on exit either the frontier is empty or at least 1000
pages were fetched; the visited set only grows during the run; and the
fetch log has no duplicates — no visited URL is ever requested twice. -/
theorem crawl_website_terminates_and_monotone (env : List Char → Option Page)
    (valid : List Char → Bool) (st : CrawlState)
    (hInv : st.fetched.Nodup ∧ ∀ x ∈ st.fetched, x ∈ st.visited) :
    (∀ x ∈ st.visited, x ∈ (crawl_website env valid st).visited) ∧
    (crawl_website env valid st).fetched.Nodup ∧
    ((crawl_website env valid st).toVisit = [] ∨
      1000 ≤ (crawl_website env valid st).pageCount) := by
  induction st using crawl_website.induct env valid with
  | case1 x hcond =>
    rw [crawl_website, if_pos hcond]
    exact ⟨fun x hx => hx, hInv.1, hcond⟩
  | case2 x hcond batch st1 ih =>
    rw [crawl_website, if_neg hcond]
    have hfold := crawl_fold_inv env valid batch st1 hInv
    rcases ih hfold with ⟨ihmono, ihnodup, ihterm⟩
    refine ⟨?_, ihnodup, ihterm⟩
    intro y hy
    exact ihmono y (crawl_fold_visited_mono env valid batch st1 y hy)

/-- Witness for C7: a concrete crawl from one seed whose fetches all
fail. -/
theorem crawl_website_terminates_and_monotone_witness :
    ((crawl_website (fun _ => none) (fun _ => false)
        ⟨["http://a.com".toList], [], 0, [], []⟩).toVisit = [] ∨
      1000 ≤ (crawl_website (fun _ => none) (fun _ => false)
        ⟨["http://a.com".toList], [], 0, [], []⟩).pageCount) ∧
    (crawl_website (fun _ => none) (fun _ => false)
        ⟨["http://a.com".toList], [], 0, [], []⟩).fetched.Nodup := by
  have h := crawl_website_terminates_and_monotone (fun _ => none) (fun _ => false)
    ⟨["http://a.com".toList], [], 0, [], []⟩
    ⟨List.nodup_nil, by intro x hx; cases hx⟩
  exact ⟨h.2.2, h.2.1⟩

/-! ### URL normalization: infrastructure lemmas for claim C8 -/

theorem takeWhile_all_true {p : Char → Bool} :
    ∀ {a : List Char}, (∀ c ∈ a, p c = true) → a.takeWhile p = a := by
  intro a
  induction a with
  | nil => intro _; rfl
  | cons c t ih =>
    intro h
    rw [List.takeWhile_cons, h c (List.mem_cons_self _ _),
        ih (fun x hx => h x (List.mem_cons_of_mem _ hx))]
    rfl

theorem dropWhile_all_true {p : Char → Bool} :
    ∀ {a : List Char}, (∀ c ∈ a, p c = true) → a.dropWhile p = [] := by
  intro a
  induction a with
  | nil => intro _; rfl
  | cons c t ih =>
    intro h
    rw [List.dropWhile_cons, h c (List.mem_cons_self _ _)]
    exact ih (fun x hx => h x (List.mem_cons_of_mem _ hx))

theorem takeWhile_append_all {p : Char → Bool} {a : List Char} (b : List Char)
    (h : ∀ c ∈ a, p c = true) :
    (a ++ b).takeWhile p = a ++ b.takeWhile p := by
  induction a with
  | nil => rfl
  | cons c t ih =>
    rw [List.cons_append, List.takeWhile_cons, h c (List.mem_cons_self _ _),
        ih (fun x hx => h x (List.mem_cons_of_mem _ hx))]
    rfl

theorem dropWhile_append_all {p : Char → Bool} {a : List Char} (b : List Char)
    (h : ∀ c ∈ a, p c = true) :
    (a ++ b).dropWhile p = b.dropWhile p := by
  induction a with
  | nil => rfl
  | cons c t ih =>
    rw [List.cons_append, List.dropWhile_cons, h c (List.mem_cons_self _ _)]
    exact ih (fun x hx => h x (List.mem_cons_of_mem _ hx))

theorem bne_all_of_not_mem {m : Char} {a : List Char} (h : m ∉ a) :
    ∀ c ∈ a, (c != m) = true := by
  intro c hc
  exact bne_iff_ne.mpr (fun e => h (e ▸ hc))

theorem splitOnFirst_not_mem (m : Char) (l : List Char) (h : m ∉ l) :
    splitOnFirst m l = (l, []) := by
  rw [splitOnFirst, takeWhile_all_true (bne_all_of_not_mem h),
      dropWhile_all_true (bne_all_of_not_mem h)]
  rfl

theorem splitOnFirst_split (m : Char) (a b : List Char) (h : m ∉ a) :
    splitOnFirst m (a ++ m :: b) = (a, b) := by
  rw [splitOnFirst, takeWhile_append_all _ (bne_all_of_not_mem h),
      dropWhile_append_all _ (bne_all_of_not_mem h),
      List.takeWhile_cons, List.dropWhile_cons]
  simp

theorem first_occurrence_split {m : Char} :
    ∀ {l : List Char}, m ∈ l → ∃ a b, l = a ++ m :: b ∧ m ∉ a := by
  intro l
  induction l with
  | nil => intro h; cases h
  | cons c t ih =>
    intro h
    by_cases hc : c = m
    · subst hc
      exact ⟨[], t, rfl, by simp⟩
    · rcases ih (by
        rcases List.mem_cons.mp h with h1 | h1
        · exact absurd h1.symm hc
        · exact h1) with ⟨a, b, hab, hna⟩
      refine ⟨c :: a, b, by rw [hab, List.cons_append], ?_⟩
      intro hm
      rcases List.mem_cons.mp hm with h1 | h1
      · exact hc h1.symm
      · exact hna h1

theorem toLower_eq (c : Char) :
    Char.toLower c = if 65 ≤ c.toNat ∧ c.toNat ≤ 90 then Char.ofNat (c.toNat + 32) else c := rfl

theorem toLower_cases (c : Char) : (Char.toLower c = c) ∨
    (65 ≤ c.toNat ∧ c.toNat ≤ 90 ∧ (Char.toLower c).toNat = c.toNat + 32) := by
  rw [toLower_eq]
  split
  · rename_i h
    refine Or.inr ⟨h.1, h.2, ?_⟩
    have hv : (c.toNat + 32).isValidChar := Or.inl (by omega)
    rw [Char.ofNat, dif_pos hv]
    rfl
  · exact Or.inl rfl

theorem char_eq_of_toNat {a b : Char} (h : a.toNat = b.toNat) : a = b :=
  Char.eq_of_val_eq (by apply UInt32.toNat.inj; exact h)

theorem isSchemeChar_iff (c : Char) :
    isSchemeChar c = true ↔ ((65 ≤ c.toNat ∧ c.toNat ≤ 90) ∨
      (97 ≤ c.toNat ∧ c.toNat ≤ 122) ∨ (48 ≤ c.toNat ∧ c.toNat ≤ 57) ∨
      c.toNat = 43 ∨ c.toNat = 45 ∨ c.toNat = 46) := by
  rw [isSchemeChar]
  constructor
  · intro h
    simp only [Bool.or_eq_true, Bool.and_eq_true, decide_eq_true_eq] at h
    rcases h with ((((h | h) | h) | h) | h) | h
    · exact Or.inl h
    · exact Or.inr (Or.inl h)
    · exact Or.inr (Or.inr (Or.inl h))
    · exact Or.inr (Or.inr (Or.inr (Or.inl (by rw [h]; rfl))))
    · exact Or.inr (Or.inr (Or.inr (Or.inr (Or.inl (by rw [h]; rfl)))))
    · exact Or.inr (Or.inr (Or.inr (Or.inr (Or.inr (by rw [h]; rfl)))))
  · intro h
    simp only [Bool.or_eq_true, Bool.and_eq_true, decide_eq_true_eq]
    rcases h with h | h | h | h | h | h
    · exact Or.inl (Or.inl (Or.inl (Or.inl (Or.inl h))))
    · exact Or.inl (Or.inl (Or.inl (Or.inl (Or.inr h))))
    · exact Or.inl (Or.inl (Or.inl (Or.inr h)))
    · exact Or.inl (Or.inl (Or.inr (char_eq_of_toNat (show c.toNat = (43 : Nat) from h))))
    · exact Or.inl (Or.inr (char_eq_of_toNat (show c.toNat = (45 : Nat) from h)))
    · exact Or.inr (char_eq_of_toNat (show c.toNat = (46 : Nat) from h))

theorem isAsciiAlpha_iff (c : Char) :
    isAsciiAlpha c = true ↔ ((65 ≤ c.toNat ∧ c.toNat ≤ 90) ∨
      (97 ≤ c.toNat ∧ c.toNat ≤ 122)) := by
  rw [isAsciiAlpha]
  simp only [Bool.or_eq_true, Bool.and_eq_true, decide_eq_true_eq]

theorem toLower_toNat_cases (c : Char) :
    (Char.toLower c).toNat = c.toNat ∨
    (65 ≤ c.toNat ∧ c.toNat ≤ 90 ∧ (Char.toLower c).toNat = c.toNat + 32) := by
  rcases toLower_cases c with h | h
  · exact Or.inl (by rw [h])
  · exact Or.inr h

theorem isSchemeChar_toLower {c : Char} (h : isSchemeChar c = true) :
    isSchemeChar (Char.toLower c) = true := by
  rw [isSchemeChar_iff] at h ⊢
  rcases toLower_toNat_cases c with h2 | ⟨h2a, h2b, h2c⟩
  · rw [h2]; exact h
  · rw [h2c]; omega

theorem isAsciiAlpha_toLower {c : Char} (h : isAsciiAlpha c = true) :
    isAsciiAlpha (Char.toLower c) = true := by
  rw [isAsciiAlpha_iff] at h ⊢
  rcases toLower_toNat_cases c with h2 | ⟨h2a, h2b, h2c⟩
  · rw [h2]; exact h
  · rw [h2c]; omega

theorem toLower_idem (c : Char) : Char.toLower (Char.toLower c) = Char.toLower c := by
  rcases toLower_cases c with h | ⟨h1, h2, h3⟩
  · rw [h, h]
  · rcases toLower_cases (Char.toLower c) with h4 | ⟨h4, h5, _⟩
    · exact h4
    · rw [h3] at h4 h5
      omega

theorem isSchemeChar_ne_colon {c : Char} (h : isSchemeChar c = true) : c ≠ ':' := by
  intro hc
  subst hc
  exact absurd h (by decide)

theorem isSchemeChar_ne_tnl {c : Char} (h : isSchemeChar c = true) : isTNL c = false := by
  rw [isSchemeChar_iff] at h
  by_contra hne
  rw [Bool.not_eq_false, isTNL] at hne
  simp only [Bool.or_eq_true, beq_iff_eq, decide_eq_true_eq] at hne
  rcases hne with (rfl | rfl) | rfl
  · exact absurd h (by decide)
  · exact absurd h (by decide)
  · exact absurd h (by decide)

theorem takeWhile_marker (m : Char) (a b : List Char) (h : m ∉ a) :
    (a ++ m :: b).takeWhile (fun c => c != m) = a := by
  rw [takeWhile_append_all _ (bne_all_of_not_mem h), List.takeWhile_cons]
  simp

theorem dropWhile_marker (m : Char) (a b : List Char) (h : m ∉ a) :
    (a ++ m :: b).dropWhile (fun c => c != m) = m :: b := by
  rw [dropWhile_append_all _ (bne_all_of_not_mem h), List.dropWhile_cons]
  simp

theorem extractScheme_no_colon (l : List Char) (h : (':' : Char) ∉ l) :
    extractScheme l = ([], l) := by
  unfold extractScheme
  rw [dropWhile_all_true (bne_all_of_not_mem h)]

theorem extractScheme_cond_true (a b : List Char) (hna : (':' : Char) ∉ a)
    (hcond : a ≠ [] ∧ isAsciiAlpha a.headI = true ∧ a.all isSchemeChar = true) :
    extractScheme (a ++ ':' :: b) = (a.map Char.toLower, b) := by
  unfold extractScheme
  rw [dropWhile_marker ':' a b hna]
  dsimp only
  rw [takeWhile_marker ':' a b hna, if_pos hcond]

theorem extractScheme_cond_false (a b : List Char) (hna : (':' : Char) ∉ a)
    (hcond : ¬(a ≠ [] ∧ isAsciiAlpha a.headI = true ∧ a.all isSchemeChar = true)) :
    extractScheme (a ++ ':' :: b) = ([], a ++ ':' :: b) := by
  unfold extractScheme
  rw [dropWhile_marker ':' a b hna]
  dsimp only
  rw [takeWhile_marker ':' a b hna, if_neg hcond]

theorem extractScheme_recover (s R : List Char) (hne : s ≠ [])
    (halpha : isAsciiAlpha s.headI = true) (hall : s.all isSchemeChar = true)
    (hlower : s.map Char.toLower = s) :
    extractScheme (s ++ ':' :: R) = (s, R) := by
  have hna : (':' : Char) ∉ s := by
    intro hm
    exact isSchemeChar_ne_colon (List.all_eq_true.mp hall _ hm) rfl
  rw [extractScheme_cond_true s R hna ⟨hne, halpha, hall⟩, hlower]

theorem extractScheme_head_bad (c : Char) (t : List Char)
    (h : c = ':' ∨ isAsciiAlpha c = false) :
    extractScheme (c :: t) = ([], c :: t) := by
  by_cases hc : c = ':'
  · subst hc
    exact extractScheme_cond_false [] t (by simp) (by simp)
  · rcases h with rfl | h
    · exact absurd rfl hc
    · by_cases hct : (':' : Char) ∈ c :: t
      · rcases first_occurrence_split hct with ⟨a, b, hab, hna⟩
        rw [hab]
        apply extractScheme_cond_false a b hna
        rintro ⟨hane, halpha, _⟩
        have hha : a.headI = c := by
          rcases a with _ | ⟨x, y⟩
          · exact absurd rfl hane
          · have h3 : x :: (y ++ ':' :: b) = c :: t := by
              rw [hab]
              rfl
            exact ((List.cons.injEq _ _ _ _).mp h3).1
        rw [hha] at halpha
        rw [halpha] at h
        cases h
      · exact extractScheme_no_colon _ hct

theorem extractScheme_eq_self_of_fst_nil (l : List Char)
    (h : (extractScheme l).1 = []) : extractScheme l = ([], l) := by
  by_cases hc : (':' : Char) ∈ l
  · rcases first_occurrence_split hc with ⟨a, b, rfl, hna⟩
    by_cases hcond : a ≠ [] ∧ isAsciiAlpha a.headI = true ∧ a.all isSchemeChar = true
    · rw [extractScheme_cond_true a b hna hcond] at h
      dsimp at h
      exact absurd (List.map_eq_nil.mp h) hcond.1
    · exact extractScheme_cond_false a b hna hcond
  · exact extractScheme_no_colon _ hc

theorem extractScheme_eq_self_of_append (pth t : List Char)
    (hs : extractScheme (pth ++ t) = ([], pth ++ t)) :
    extractScheme pth = ([], pth) := by
  by_cases hc : (':' : Char) ∈ pth
  · rcases first_occurrence_split hc with ⟨a, b, rfl, hna⟩
    have heq : (a ++ ':' :: b) ++ t = a ++ ':' :: (b ++ t) := by
      simp
    rw [heq] at hs
    apply extractScheme_cond_false a b hna
    intro hcond
    rw [extractScheme_cond_true a (b ++ t) hna hcond] at hs
    have h1 : a.map Char.toLower = [] := congrArg Prod.fst hs
    exact hcond.1 (List.map_eq_nil.mp h1)
  · exact extractScheme_no_colon _ hc

theorem extractScheme_eq_self_append_tail (pth t : List Char)
    (hp : extractScheme pth = ([], pth))
    (ht : t = [] ∨ ∃ c t2, t = c :: t2 ∧ isSchemeChar c = false ∧ c ≠ ':') :
    extractScheme (pth ++ t) = ([], pth ++ t) := by
  by_cases hc : (':' : Char) ∈ pth
  · rcases first_occurrence_split hc with ⟨a, b, hab, hna⟩
    subst hab
    have heq : (a ++ ':' :: b) ++ t = a ++ ':' :: (b ++ t) := by simp
    rw [heq]
    apply extractScheme_cond_false a _ hna
    intro hcond
    rw [extractScheme_cond_true a b hna hcond] at hp
    have h1 : a.map Char.toLower = [] := congrArg Prod.fst hp
    exact hcond.1 (List.map_eq_nil.mp h1)
  · rcases ht with rfl | ⟨c, t2, rfl, hsc, hcc⟩
    · rw [List.append_nil]
      exact hp
    · by_cases hct : (':' : Char) ∈ pth ++ c :: t2
      · rcases first_occurrence_split hct with ⟨a, b, hab, hna⟩
        rw [hab]
        apply extractScheme_cond_false a b hna
        rintro ⟨_, _, hall⟩
        -- `c` sits inside `a`: the colon is past it, so `a.all isSchemeChar` fails.
        have hcmem : c ∈ a := by
          have hsplit : pth ++ c :: t2 = a ++ ':' :: b := hab
          by_contra hcm
          -- c occurs at position pth.length; every char of a is left of the colon
          -- split a along pth: since ':' ∉ pth and c ≠ ':', compare prefixes.
          rcases List.append_eq_append_iff.mp hsplit with ⟨a', ha1, ha2⟩ | ⟨b', hb1, hb2⟩
          · -- a = pth ++ a' and c :: t2 = a' ++ ':' :: b
            rcases a' with _ | ⟨x, y⟩
            · simp at ha2
              exact hcc ha2.1
            · have hx : x = c := by
                have h3 : x :: (y ++ ':' :: b) = c :: t2 := by
                  rw [ha2]
                  rfl
                exact ((List.cons.injEq _ _ _ _).mp h3).1
              apply hcm
              rw [ha1, hx]
              exact List.mem_append_right _ (List.mem_cons_self _ _)
          · -- pth = a ++ b' and ':' :: b = b' ++ c :: t2
            rcases b' with _ | ⟨x, y⟩
            · simp at hb2
              exact hcc hb2.1.symm
            · have hx : x = ':' := by
                have := hb2
                rw [List.cons_append] at this
                exact ((List.cons.injEq _ _ _ _).mp this).1.symm
              apply hc
              rw [hb1, hx]
              exact List.mem_append_right _ (List.mem_cons_self _ _)
        rw [List.all_eq_true] at hall
        rw [hall c hcmem] at hsc
        cases hsc
      · exact extractScheme_no_colon _ hct

theorem extractNetloc_not_slashes (l : List Char) (h : l.take 2 ≠ ['/', '/']) :
    extractNetloc l = ([], l) := by
  rw [extractNetloc, if_neg h]

theorem extractNetloc_slashes (n r : List Char)
    (hn : ∀ c ∈ n, isNetlocDelim c = false)
    (hr : r = [] ∨ ∃ c r2, r = c :: r2 ∧ isNetlocDelim c = true) :
    extractNetloc ('/' :: '/' :: (n ++ r)) = (n, r) := by
  rw [extractNetloc,
      if_pos (show (('/' :: '/' :: (n ++ r) : List Char)).take 2 = ['/', '/'] from rfl)]
  have hn2 : ∀ c ∈ n, (!isNetlocDelim c) = true := by
    intro c hc
    rw [hn c hc]
    rfl
  have hdrop2 : (('/' :: '/' :: (n ++ r)) : List Char).drop 2 = n ++ r := rfl
  rw [hdrop2, takeWhile_append_all _ hn2, dropWhile_append_all _ hn2]
  rcases hr with rfl | ⟨c, r2, rfl, hc⟩
  · simp
  · rw [List.takeWhile_cons, List.dropWhile_cons, hc]
    simp

theorem take2_slash_iff (l : List Char) :
    l.take 2 = ['/', '/'] ↔ ∃ t, l = '/' :: '/' :: t := by
  constructor
  · intro h
    rcases l with _ | ⟨c1, _ | ⟨c2, t⟩⟩
    · simp at h
    · simp [List.take] at h
    · rw [show ((c1 :: c2 :: t) : List Char).take 2 = [c1, c2] from rfl] at h
      have h1 : c1 = '/' := ((List.cons.injEq _ _ _ _).mp h).1
      have h2 : c2 = '/' :=
        ((List.cons.injEq _ _ _ _).mp ((List.cons.injEq _ _ _ _).mp h).2).1
      exact ⟨t, by rw [h1, h2]⟩
  · rintro ⟨t, rfl⟩
    rfl

theorem afterLastSlash_no_slash (l : List Char) (h : ('/' : Char) ∉ l) :
    afterLastSlash l = l := by
  induction l with
  | nil => rfl
  | cons c t ih =>
    rw [afterLastSlash]
    have hm : ('/' : Char) ∉ t := fun hmem => h (List.mem_cons_of_mem _ hmem)
    have hcc : ¬(c = '/') := fun hc => h (by rw [hc]; exact List.mem_cons_self _ _)
    rw [if_neg hm, if_neg hcc]

theorem afterLastSlash_not_mem (l : List Char) : ('/' : Char) ∉ afterLastSlash l := by
  induction l with
  | nil => simp [afterLastSlash]
  | cons c t ih =>
    rw [afterLastSlash]
    by_cases hm : ('/' : Char) ∈ t
    · rw [if_pos hm]
      exact ih
    · rw [if_neg hm]
      by_cases hc : c = '/'
      · rw [if_pos hc]
        exact hm
      · rw [if_neg hc]
        intro hmem
        rcases List.mem_cons.mp hmem with h1 | h1
        · exact hc h1.symm
        · exact hm h1

theorem afterLastSlash_suffix (l : List Char) :
    ∃ a, a ++ afterLastSlash l = l := by
  induction l with
  | nil => exact ⟨[], rfl⟩
  | cons c t ih =>
    rw [afterLastSlash]
    by_cases hm : ('/' : Char) ∈ t
    · rw [if_pos hm]
      rcases ih with ⟨a, ha⟩
      exact ⟨c :: a, by rw [List.cons_append, ha]⟩
    · rw [if_neg hm]
      by_cases hc : c = '/'
      · rw [if_pos hc]
        exact ⟨[c], rfl⟩
      · rw [if_neg hc]
        exact ⟨[], rfl⟩

theorem afterLastSlash_append (a b : List Char) (hb : ('/' : Char) ∉ b) :
    afterLastSlash (a ++ b) = afterLastSlash a ++ b := by
  induction a with
  | nil =>
    rw [List.nil_append, afterLastSlash_no_slash b hb]
    rfl
  | cons c t ih =>
    rw [List.cons_append, afterLastSlash, afterLastSlash]
    by_cases hm : ('/' : Char) ∈ t
    · rw [if_pos (List.mem_append_left _ hm), if_pos hm]
      exact ih
    · have hm2 : ('/' : Char) ∉ t ++ b := by
        intro h
        rcases List.mem_append.mp h with h1 | h1
        · exact hm h1
        · exact hb h1
      rw [if_neg hm2, if_neg hm]
      by_cases hc : c = '/'
      · rw [if_pos hc, if_pos hc]
      · rw [if_neg hc, if_neg hc, List.cons_append]

theorem afterLastSlash_cons_slash (l : List Char) :
    afterLastSlash ('/' :: l) = afterLastSlash l := by
  rw [afterLastSlash]
  by_cases hm : ('/' : Char) ∈ l
  · rw [if_pos hm]
  · rw [if_neg hm, if_pos rfl, afterLastSlash_no_slash l hm]

theorem splitParams_no (l : List Char) (h : (';' : Char) ∉ afterLastSlash l) :
    splitParams l = (l, []) := by
  unfold splitParams
  rw [if_neg h]

theorem splitParams_yes (pth par : List Char)
    (h4 : (';' : Char) ∉ afterLastSlash pth) (h5 : ('/' : Char) ∉ par) :
    splitParams (pth ++ ';' :: par) = (pth, par) := by
  have hsl : ('/' : Char) ∉ (';' :: par : List Char) := by
    intro hm
    rcases List.mem_cons.mp hm with h1 | h1
    · cases h1
    · exact h5 h1
  have hals : afterLastSlash (pth ++ ';' :: par)
      = afterLastSlash pth ++ ';' :: par := afterLastSlash_append _ _ hsl
  rcases afterLastSlash_suffix pth with ⟨a, ha⟩
  unfold splitParams
  rw [hals, if_pos (List.mem_append_right _ (List.mem_cons_self _ _))]
  rw [takeWhile_marker ';' _ par h4, dropWhile_marker ';' _ par h4]
  have hlena : a.length + (afterLastSlash pth).length = pth.length := by
    rw [← List.length_append, ha]
  have hlen : (pth ++ ';' :: par).length
      - (afterLastSlash pth ++ ';' :: par).length = a.length := by
    rw [List.length_append, List.length_append]
    omega
  rw [hlen]
  have hsplit : pth ++ ';' :: par = a ++ (afterLastSlash pth ++ ';' :: par) := by
    rw [← List.append_assoc, ha]
  rw [hsplit, List.take_left, List.tail_cons]
  rw [ha]

theorem stripUnsafe_eq_self (l : List Char) (h1 : ∀ c ∈ l, isTNL c = false)
    (h2 : l = [] ∨ isC0Space l.headI = false) :
    stripUnsafe l = l := by
  cases l with
  | nil => rfl
  | cons c t =>
    have hc0 : isC0Space c = false := by
      rcases h2 with h2 | h2
      · cases h2
      · exact h2
    rw [stripUnsafe, List.dropWhile_cons, hc0]
    simp only [Bool.false_eq_true, if_false]
    rw [List.filter_eq_self.mpr]
    intro a ha
    rw [h1 a ha]
    rfl

theorem headI_append {a : List Char} (b : List Char) (h : a ≠ []) :
    (a ++ b).headI = a.headI := by
  cases a with
  | nil => exact absurd rfl h
  | cons c t => rfl

theorem dropWhile_head_false {p : Char → Bool} :
    ∀ (l : List Char), l.dropWhile p = [] ∨
      ∃ c t, l.dropWhile p = c :: t ∧ p c = false := by
  intro l
  induction l with
  | nil => exact Or.inl rfl
  | cons c t ih =>
    rw [List.dropWhile_cons]
    by_cases hc : p c = true
    · rw [hc]
      simpa using ih
    · rw [Bool.not_eq_true] at hc
      rw [hc]
      exact Or.inr ⟨c, t, by simp, hc⟩

theorem takeWhile_eq_nil_dropWhile {p : Char → Bool} {l : List Char}
    (h : l.takeWhile p = []) : l.dropWhile p = l := by
  have := List.takeWhile_append_dropWhile p l
  rw [h, List.nil_append] at this
  exact this

theorem extractScheme_total (s : List Char) :
    (extractScheme s = ([], s)) ∨
    (∃ pre R, s = pre ++ ':' :: R ∧ (':' : Char) ∉ pre ∧ pre ≠ [] ∧
      isAsciiAlpha pre.headI = true ∧ pre.all isSchemeChar = true ∧
      extractScheme s = (pre.map Char.toLower, R)) := by
  by_cases hc : (':' : Char) ∈ s
  · rcases first_occurrence_split hc with ⟨a, b, rfl, hna⟩
    by_cases hcond : a ≠ [] ∧ isAsciiAlpha a.headI = true ∧ a.all isSchemeChar = true
    · exact Or.inr ⟨a, b, rfl, hna, hcond.1, hcond.2.1, hcond.2.2,
        extractScheme_cond_true a b hna hcond⟩
    · exact Or.inl (extractScheme_cond_false a b hna hcond)
  · exact Or.inl (extractScheme_no_colon _ hc)

theorem isTNL_iff (c : Char) :
    isTNL c = true ↔ (c.toNat = 9 ∨ c.toNat = 13 ∨ c.toNat = 10) := by
  rw [isTNL]
  simp only [Bool.or_eq_true, beq_iff_eq, decide_eq_true_eq]
  constructor
  · rintro ((rfl | rfl) | rfl)
    · exact Or.inl rfl
    · exact Or.inr (Or.inl rfl)
    · exact Or.inr (Or.inr rfl)
  · rintro (h | h | h)
    · exact Or.inl (Or.inl (char_eq_of_toNat (show c.toNat = ('\t' : Char).toNat from h)))
    · exact Or.inl (Or.inr (char_eq_of_toNat (show c.toNat = ('\r' : Char).toNat from h)))
    · exact Or.inr (char_eq_of_toNat (show c.toNat = ('\n' : Char).toNat from h))

theorem isTNL_toLower {c : Char} (h : isTNL c = false) :
    isTNL (Char.toLower c) = false := by
  by_contra hne
  rw [Bool.not_eq_false, isTNL_iff] at hne
  rcases toLower_toNat_cases c with h2 | ⟨h2a, h2b, h2c⟩
  · rw [h2] at hne
    rw [← isTNL_iff, h] at hne
    cases hne
  · rw [h2c] at hne
    omega

theorem isTNL_isC0Space {c : Char} (h : isTNL c = true) : isC0Space c = true := by
  rw [isTNL_iff] at h
  rw [isC0Space, decide_eq_true_eq]
  omega

theorem stripUnsafe_tnl_free (u : List Char) :
    ∀ c ∈ stripUnsafe u, isTNL c = false := by
  intro c hc
  rw [stripUnsafe] at hc
  have := (List.mem_filter.mp hc).2
  rwa [Bool.not_eq_true'] at this

theorem stripUnsafe_head (u : List Char) :
    stripUnsafe u = [] ∨ isC0Space (stripUnsafe u).headI = false := by
  rcases dropWhile_head_false (p := isC0Space) u with h | ⟨c, t, h, hc⟩
  · rw [stripUnsafe, h]
    exact Or.inl rfl
  · right
    have hcn : isTNL c = false := by
      by_contra hne
      rw [Bool.not_eq_false] at hne
      rw [isTNL_isC0Space hne] at hc
      cases hc
    rw [stripUnsafe, h, List.filter_cons, (show (!isTNL c) = true by rw [hcn]; rfl)]
    simp only [if_true]
    rw [show (c :: List.filter (fun c => !isTNL c) t).headI = c from rfl]
    exact hc

theorem stripUnsafe_subset (u : List Char) : ∀ c ∈ stripUnsafe u, c ∈ u := by
  intro c hc
  rw [stripUnsafe] at hc
  exact (List.dropWhile_sublist isC0Space).mem ((List.mem_filter.mp hc).1)

theorem takeWhile_prefix_ex {p : Char → Bool} (l : List Char) :
    ∃ T, l.takeWhile p ++ T = l :=
  ⟨l.dropWhile p, List.takeWhile_append_dropWhile p l⟩

theorem mem_takeWhile_ne {m : Char} {l : List Char} :
    ∀ c ∈ l.takeWhile (fun c => c != m), c ≠ m := by
  intro c hc
  have h2 := @List.mem_takeWhile_imp Char (fun c => c != m) l c hc
  exact bne_iff_ne.mp h2

theorem afterLastSlash_marker (b : List Char) (hb : ('/' : Char) ∉ b) :
    ∀ a, afterLastSlash (a ++ '/' :: b) = b := by
  intro a
  induction a with
  | nil =>
    rw [List.nil_append, afterLastSlash_cons_slash, afterLastSlash_no_slash b hb]
  | cons c t ih =>
    rw [List.cons_append, afterLastSlash,
        if_pos (List.mem_append_right _ (List.mem_cons_self _ _))]
    exact ih

theorem take_sub_length (a s l : List Char) (h : a ++ s = l) :
    l.take (l.length - s.length) = a := by
  subst h
  rw [List.length_append]
  have h2 : a.length + s.length - s.length = a.length := by omega
  rw [h2, List.take_left]

theorem afterLastSlash_decomp (l : List Char) (h : ('/' : Char) ∈ l) :
    ∃ a, a ++ '/' :: afterLastSlash l = l := by
  induction l with
  | nil => cases h
  | cons c t ih =>
    rw [afterLastSlash]
    by_cases hm : ('/' : Char) ∈ t
    · rw [if_pos hm]
      rcases ih hm with ⟨a, ha⟩
      exact ⟨c :: a, by rw [List.cons_append, ha]⟩
    · rw [if_neg hm]
      have hc : c = '/' := by
        rcases List.mem_cons.mp h with h1 | h1
        · exact h1.symm
        · exact absurd h1 hm
      rw [if_pos hc]
      exact ⟨[], by rw [hc]; rfl⟩

theorem takeWhile_nil_head {p : Char → Bool} (l : List Char)
    (h : l.takeWhile p = []) : l = [] ∨ p l.headI = false := by
  cases l with
  | nil => exact Or.inl rfl
  | cons c t =>
    rw [List.takeWhile_cons] at h
    right
    by_cases hc : p c = true
    · rw [hc] at h
      simp at h
    · rwa [Bool.not_eq_true] at hc

theorem takeWhile_ne_nil_head {p : Char → Bool} (l : List Char)
    (h : l.takeWhile p ≠ []) : l ≠ [] ∧ (l.takeWhile p).headI = l.headI := by
  cases l with
  | nil => exact absurd rfl h
  | cons c t =>
    rw [List.takeWhile_cons]
    rw [List.takeWhile_cons] at h
    by_cases hc : p c = true
    · rw [hc]
      exact ⟨List.cons_ne_nil _ _, rfl⟩
    · rw [Bool.not_eq_true] at hc
      rw [hc] at h
      exact absurd rfl h

theorem splitParams_facts (l path params : List Char)
    (h : splitParams l = (path, params)) :
    (∃ T, path ++ T = l) ∧
    ((';' : Char) ∉ afterLastSlash path) ∧
    (∀ c ∈ params, c ∈ l) ∧ (('/' : Char) ∉ params) ∧
    (path ≠ [] → l ≠ [] ∧ path.headI = l.headI) ∧
    (path = [] → params ≠ [] → l ≠ [] ∧ l.headI = ';') := by
  by_cases hsemi : (';' : Char) ∈ afterLastSlash l
  · have hsp : splitParams l
        = (l.take (l.length - (afterLastSlash l).length)
            ++ (afterLastSlash l).takeWhile (fun c => c != ';'),
           ((afterLastSlash l).dropWhile (fun c => c != ';')).tail) := by
      unfold splitParams
      rw [if_pos hsemi]
    rw [hsp] at h
    rcases afterLastSlash_suffix l with ⟨a, ha⟩
    have hta : l.take (l.length - (afterLastSlash l).length) = a :=
      take_sub_length a _ l ha
    rw [hta] at h
    have hpath : path = a ++ (afterLastSlash l).takeWhile (fun c => c != ';') :=
      (congrArg Prod.fst h).symm
    have hpar : params = ((afterLastSlash l).dropWhile (fun c => c != ';')).tail :=
      (congrArg Prod.snd h).symm
    rcases takeWhile_prefix_ex (p := fun c => c != ';') (afterLastSlash l) with ⟨T0, hT0⟩
    have hnosl_seg : ('/' : Char) ∉ afterLastSlash l := afterLastSlash_not_mem l
    have hnosl_kept :
        ('/' : Char) ∉ (afterLastSlash l).takeWhile (fun c => c != ';') := by
      intro hm
      exact hnosl_seg (by rw [← hT0]; exact List.mem_append_left _ hm)
    refine ⟨⟨T0, ?_⟩, ?_, ?_, ?_, ?_, ?_⟩
    · rw [hpath, List.append_assoc, hT0, ha]
    · have hals : afterLastSlash path
          = (afterLastSlash l).takeWhile (fun c => c != ';') := by
        by_cases hsl : ('/' : Char) ∈ l
        · rcases afterLastSlash_decomp l hsl with ⟨a2, ha2⟩
          have ha2' : (a2 ++ ['/']) ++ afterLastSlash l = l := by
            rw [List.append_assoc]
            exact ha2
          have haa : a = a2 ++ ['/'] :=
            List.append_cancel_right (ha.trans ha2'.symm)
          rw [hpath, haa, List.append_assoc]
          exact afterLastSlash_marker _ hnosl_kept a2
        · have hseg : afterLastSlash l = l := afterLastSlash_no_slash l hsl
          have hanil : a = [] := by
            have h2 := ha
            rw [hseg] at h2
            have hl := congrArg List.length h2
            rw [List.length_append] at hl
            have h3 : a.length = 0 := by omega
            exact List.eq_nil_of_length_eq_zero h3
          rw [hpath, hanil, List.nil_append]
          exact afterLastSlash_no_slash _ hnosl_kept
      rw [hals]
      intro hm
      exact (mem_takeWhile_ne _ hm) rfl
    · intro c hc
      rw [hpar] at hc
      have h1 : c ∈ (afterLastSlash l).dropWhile (fun c => c != ';') :=
        List.tail_subset _ hc
      have h2 : c ∈ afterLastSlash l := (List.dropWhile_sublist _).mem h1
      rw [← ha]
      exact List.mem_append_right _ h2
    · intro hm
      rw [hpar] at hm
      exact hnosl_seg ((List.dropWhile_sublist _).mem (List.tail_subset _ hm))
    · intro hne
      rw [hpath] at hne ⊢
      by_cases hanil : a = []
      · rw [hanil, List.nil_append] at hne ⊢
        rw [hanil, List.nil_append] at ha
        rcases takeWhile_ne_nil_head _ hne with ⟨hsegne, hhead⟩
        refine ⟨by rw [← ha]; exact hsegne, ?_⟩
        rw [hhead, ha]
      · have hlne : l ≠ [] := by
          intro h0
          rw [h0] at ha
          exact hanil (List.append_eq_nil.mp ha).1
        refine ⟨hlne, ?_⟩
        rw [headI_append _ hanil, ← ha, headI_append _ hanil]
    · intro hpnil hparne
      rw [hpath] at hpnil
      rcases List.append_eq_nil.mp hpnil with ⟨hanil, hkept⟩
      rw [hanil, List.nil_append] at ha
      rcases takeWhile_nil_head _ hkept with hsegnil | hhead
      · rw [hpar, hsegnil] at hparne
        simp at hparne
      · have hsegne : afterLastSlash l ≠ [] := by
          intro h0
          rw [hpar, h0] at hparne
          simp at hparne
        have hsemi2 : (afterLastSlash l).headI = ';' := by
          have := hhead
          rcases hc : (afterLastSlash l).headI == ';' with _ | _
          · rw [bne] at this
            rw [hc] at this
            simp at this
          · exact beq_iff_eq.mp hc
        refine ⟨by rw [← ha]; exact hsegne, ?_⟩
        rw [← ha, hsemi2]
  · have hsp : splitParams l = (l, []) := splitParams_no l hsemi
    rw [hsp] at h
    have h1 : path = l := (congrArg Prod.fst h).symm
    have h2 : params = [] := (congrArg Prod.snd h).symm
    subst h1
    subst h2
    refine ⟨⟨[], List.append_nil _⟩, hsemi, ?_, ?_,
      fun hne => ⟨hne, rfl⟩, fun _ hne => absurd rfl hne⟩
    · intro c hc
      cases hc
    · intro hm
      cases hm
theorem headI_map (f : Char → Char) (l : List Char) (h : l ≠ []) :
    (l.map f).headI = f l.headI := by
  cases l with
  | nil => exact absurd rfl h
  | cons c t => rfl

theorem headI_mem (l : List Char) (h : l ≠ []) : l.headI ∈ l := by
  cases l with
  | nil => exact absurd rfl h
  | cons c t => exact List.mem_cons_self _ _

theorem splitOnFirst_facts (m : Char) (l a b : List Char)
    (h : splitOnFirst m l = (a, b)) :
    (∃ T, a ++ T = l) ∧ (m ∉ a) ∧ (∀ c ∈ b, c ∈ l) ∧
    (a ≠ [] → l ≠ [] ∧ a.headI = l.headI) ∧
    (a = [] → l = [] ∨ l.headI = m) := by
  have ha : a = l.takeWhile (fun c => c != m) := (congrArg Prod.fst h).symm
  have hb : b = (l.dropWhile (fun c => c != m)).tail := (congrArg Prod.snd h).symm
  refine ⟨?_, ?_, ?_, ?_, ?_⟩
  · rw [ha]
    exact takeWhile_prefix_ex l
  · intro hm
    rw [ha] at hm
    exact (mem_takeWhile_ne _ hm) rfl
  · intro c hc
    rw [hb] at hc
    exact (List.dropWhile_sublist _).mem (List.tail_subset _ hc)
  · intro hne
    rw [ha] at hne
    have := takeWhile_ne_nil_head l hne
    rw [ha]
    exact this
  · intro hnil
    rw [ha] at hnil
    rcases takeWhile_nil_head l hnil with h1 | h1
    · exact Or.inl h1
    · right
      rcases hc : l.headI == m with _ | _
      · rw [bne, hc] at h1
        simp at h1
      · exact beq_iff_eq.mp hc

theorem extractNetloc_facts (l nl r : List Char) (h : extractNetloc l = (nl, r)) :
    (∀ c ∈ nl, isNetlocDelim c = false) ∧
    (∀ c ∈ nl, c ∈ l) ∧
    (∀ c ∈ r, c ∈ l) ∧
    (nl ≠ [] → r = [] ∨ isNetlocDelim r.headI = true) ∧
    (l.take 2 = ['/', '/'] → r = [] ∨ isNetlocDelim r.headI = true) ∧
    (l.take 2 ≠ ['/', '/'] → nl = [] ∧ r = l) := by
  by_cases h2 : l.take 2 = ['/', '/']
  · rcases take2_slash_iff l |>.mp h2 with ⟨t, rfl⟩
    have he : extractNetloc ('/' :: '/' :: t)
        = (t.takeWhile (fun c => !isNetlocDelim c),
           t.dropWhile (fun c => !isNetlocDelim c)) := by
      rw [extractNetloc, if_pos h2]
      rfl
    rw [he] at h
    have hnl : nl = t.takeWhile (fun c => !isNetlocDelim c) :=
      (congrArg Prod.fst h).symm
    have hr : r = t.dropWhile (fun c => !isNetlocDelim c) :=
      (congrArg Prod.snd h).symm
    have hrshape : r = [] ∨ isNetlocDelim r.headI = true := by
      rcases dropWhile_head_false (p := fun c => !isNetlocDelim c) t with h3 | ⟨c, t2, h3, hc⟩
      · exact Or.inl (by rw [hr, h3])
      · right
        rw [hr, h3]
        rw [show ((c :: t2 : List Char)).headI = c from rfl]
        rwa [Bool.not_eq_false'] at hc
    refine ⟨?_, ?_, ?_, fun _ => hrshape, fun _ => hrshape, fun hc => absurd h2 hc⟩
    · intro c hc
      rw [hnl] at hc
      have h4 : (!isNetlocDelim c) = true :=
        @List.mem_takeWhile_imp Char (fun c => !isNetlocDelim c) t c hc
      rwa [Bool.not_eq_true'] at h4
    · intro c hc
      rw [hnl] at hc
      exact List.mem_cons_of_mem _ (List.mem_cons_of_mem _
        ((List.takeWhile_sublist _).mem hc))
    · intro c hc
      rw [hr] at hc
      exact List.mem_cons_of_mem _ (List.mem_cons_of_mem _
        ((List.dropWhile_sublist _).mem hc))
  · rw [extractNetloc_not_slashes l h2] at h
    have hnl : nl = [] := (congrArg Prod.fst h).symm
    have hr : r = l := (congrArg Prod.snd h).symm
    subst hnl
    subst hr
    exact ⟨fun c hc => absurd hc (List.not_mem_nil c),
      fun c hc => absurd hc (List.not_mem_nil c), fun c hc => hc,
      fun hne => absurd rfl hne, fun hc => absurd hc h2, fun _ => ⟨rfl, rfl⟩⟩

theorem extractScheme_facts (s sch r : List Char)
    (h : extractScheme s = (sch, r)) :
    (∀ c ∈ r, c ∈ s) ∧
    (sch = [] → r = s ∧ extractScheme s = ([], s)) ∧
    (sch ≠ [] → isAsciiAlpha sch.headI = true ∧ sch.all isSchemeChar = true ∧
      sch.map Char.toLower = sch ∧ (∀ c ∈ sch, ∃ c0 ∈ s, c = Char.toLower c0)) := by
  rcases extractScheme_total s with h1 | ⟨pre, R, hsplit, hnc, hpne, halpha, hall, h1⟩
  · rw [h1] at h
    have hsch : sch = [] := (congrArg Prod.fst h).symm
    have hr : r = s := (congrArg Prod.snd h).symm
    subst hsch
    subst hr
    exact ⟨fun c hc => hc, fun _ => ⟨rfl, h1⟩, fun hne => absurd rfl hne⟩
  · rw [h1] at h
    have hsch : sch = pre.map Char.toLower := (congrArg Prod.fst h).symm
    have hr : r = R := (congrArg Prod.snd h).symm
    have hschne : sch ≠ [] := by
      rw [hsch]
      intro h0
      exact hpne (List.map_eq_nil.mp h0)
    refine ⟨?_, fun h0 => absurd h0 hschne, fun _ => ⟨?_, ?_, ?_, ?_⟩⟩
    · intro c hc
      rw [hr] at hc
      rw [hsplit]
      exact List.mem_append_right _ (List.mem_cons_of_mem _ hc)
    · rw [hsch, headI_map _ _ hpne]
      exact isAsciiAlpha_toLower halpha
    · rw [hsch, List.all_eq_true]
      intro c hc
      rcases List.mem_map.mp hc with ⟨c0, hc0, rfl⟩
      exact isSchemeChar_toLower (List.all_eq_true.mp hall _ hc0)
    · rw [hsch, List.map_map]
      apply List.map_congr_left
      intro c _
      exact toLower_idem c
    · intro c hc
      rw [hsch] at hc
      rcases List.mem_map.mp hc with ⟨c0, hc0, rfl⟩
      exact ⟨c0, by rw [hsplit]; exact List.mem_append_left _ hc0, rfl⟩
theorem goodParse_build (s sch r1 nl r2 f1 q1 qry frag : List Char)
    (hshead : s = [] ∨ isC0Space s.headI = false)
    (hstnl : ∀ c ∈ s, isTNL c = false)
    (hsch : extractScheme s = (sch, r1))
    (hnl : extractNetloc r1 = (nl, r2))
    (hfr : splitOnFirst '#' r2 = (f1, frag))
    (hqr : splitOnFirst '?' f1 = (q1, qry)) :
    goodParse (if sch ∈ uses_params ∧ (';' : Char) ∈ q1 then
        ⟨sch, nl, (splitParams q1).1, (splitParams q1).2, qry, frag⟩
      else ⟨sch, nl, q1, [], qry, frag⟩) := by
  obtain ⟨hr1s, hschnil, hschne⟩ := extractScheme_facts s sch r1 hsch
  obtain ⟨hnlnd, hnlsub, hr2r1, hnlshape, hnlshape2, hnlno⟩ :=
    extractNetloc_facts r1 nl r2 hnl
  obtain ⟨⟨Tf, hTf⟩, hfnh, hfragsub, hf1h, hf1nil⟩ :=
    splitOnFirst_facts '#' r2 f1 frag hfr
  obtain ⟨⟨Tq, hTq⟩, hqnq, hqrysub, hq1h, hq1nil⟩ :=
    splitOnFirst_facts '?' f1 q1 qry hqr
  have hq1sub : ∀ c ∈ q1, c ∈ s := by
    intro c hc
    apply hr1s
    apply hr2r1
    rw [← hTf]
    apply List.mem_append_left
    rw [← hTq]
    exact List.mem_append_left _ hc
  have hq1no : ∀ c ∈ q1, c ≠ '?' ∧ c ≠ '#' := by
    intro c hc
    refine ⟨fun h0 => hqnq (h0 ▸ hc), fun h0 => hfnh ?_⟩
    rw [← hTq]
    exact List.mem_append_left _ (h0 ▸ hc)
  have hqryno : ('#' : Char) ∉ qry := by
    intro hm
    exact hfnh (hqrysub _ hm)
  have hq1r2head : q1 ≠ [] → r2 ≠ [] ∧ q1.headI = r2.headI := by
    intro hne
    obtain ⟨hf1ne, h1⟩ := hq1h hne
    obtain ⟨hr2ne, h2⟩ := hf1h hf1ne
    exact ⟨hr2ne, h1.trans h2⟩
  have hprefr2 : ∀ pth : List Char, (∃ T0, pth ++ T0 = q1) → ∃ T, pth ++ T = r2 := by
    rintro pth ⟨T0, rfl⟩
    refine ⟨T0 ++ Tq ++ Tf, ?_⟩
    rw [← List.append_assoc, ← List.append_assoc, hTq, hTf]
  have hpsub : ∀ pth : List Char, (∃ T0, pth ++ T0 = q1) → ∀ c ∈ pth, c ∈ s := by
    rintro pth ⟨T0, rfl⟩ c hc
    exact hq1sub c (List.mem_append_left _ hc)
  have hpno : ∀ pth : List Char, (∃ T0, pth ++ T0 = q1) →
      ∀ c ∈ pth, c ≠ '?' ∧ c ≠ '#' := by
    rintro pth ⟨T0, rfl⟩ c hc
    exact hq1no c (List.mem_append_left _ hc)
  have hpathslash : ∀ pth : List Char, (∃ T, pth ++ T = r2) →
      (∀ c ∈ pth, c ≠ '?' ∧ c ≠ '#') →
      (r2 = [] ∨ isNetlocDelim r2.headI = true) →
      pth = [] ∨ ∃ t, pth = '/' :: t := by
    rintro pth ⟨T, hT⟩ hno hshape
    cases pth with
    | nil => exact Or.inl rfl
    | cons c t =>
      right
      rcases hshape with h0 | hdel
      · rw [h0] at hT
        simp at hT
      · have hch : r2.headI = c := by
          rw [← hT]
          rfl
        rw [hch] at hdel
        have hcm := hno c (List.mem_cons_self _ _)
        rw [isNetlocDelim] at hdel
        simp only [Bool.or_eq_true, decide_eq_true_eq] at hdel
        rcases hdel with (h | h) | h
        · exact ⟨t, by rw [h]⟩
        · exact absurd h hcm.1
        · exact absurd h hcm.2
  have hC8 : ∀ pth : List Char, (∃ T0, pth ++ T0 = q1) → sch = [] → nl = [] →
      extractScheme pth = ([], pth) := by
    intro pth hpre hs0 hn0
    obtain ⟨hr1eq, hES⟩ := hschnil hs0
    by_cases htake : r1.take 2 = ['/', '/']
    · rcases hpathslash pth (hprefr2 pth hpre) (hpno pth hpre) (hnlshape2 htake)
        with rfl | ⟨t, rfl⟩
      · decide
      · exact extractScheme_head_bad '/' t (Or.inr (by decide))
    · obtain ⟨-, hr2eq⟩ := hnlno htake
      obtain ⟨T, hT⟩ := hprefr2 pth hpre
      apply extractScheme_eq_self_of_append pth T
      rw [hT, hr2eq, hr1eq]
      exact hES
  have hC9 : ∀ pth : List Char, (∃ T0, pth ++ T0 = q1) → nl ≠ [] →
      pth = [] ∨ ∃ t, pth = '/' :: t := by
    intro pth hpre hne
    exact hpathslash pth (hprefr2 pth hpre) (hpno pth hpre) (hnlshape hne)
  have hC12 : ∀ pth : List Char, (∃ T0, pth ++ T0 = q1) → sch = [] → nl = [] →
      pth ≠ [] → isC0Space pth.headI = false := by
    intro pth hpre hs0 hn0 hpne
    obtain ⟨hr1eq, -⟩ := hschnil hs0
    by_cases htake : r1.take 2 = ['/', '/']
    · rcases hpathslash pth (hprefr2 pth hpre) (hpno pth hpre) (hnlshape2 htake)
        with rfl | ⟨t, rfl⟩
      · exact absurd rfl hpne
      · show isC0Space '/' = false
        decide
    · obtain ⟨-, hr2eq⟩ := hnlno htake
      obtain ⟨T0, rfl⟩ := hpre
      have h1 : (pth ++ T0) ≠ [] := fun h0 => hpne (List.append_eq_nil.mp h0).1
      obtain ⟨hr2ne, hh⟩ := hq1r2head h1
      have hsne : s ≠ [] := by
        rw [← hr1eq, ← hr2eq]
        exact hr2ne
      rcases hshead with h0 | h0
      · exact absurd h0 hsne
      · rw [headI_append T0 hpne] at hh
        rw [hh, hr2eq, hr1eq]
        exact h0
  have hTNL : ∀ pth : List Char, (∃ T0, pth ++ T0 = q1) →
      ∀ par : List Char, (∀ c ∈ par, c ∈ q1) →
      ∀ c ∈ sch ++ nl ++ pth ++ par ++ qry, isTNL c = false := by
    intro pth hpre par hparsub c hc
    simp only [List.mem_append] at hc
    rcases hc with (((hc | hc) | hc) | hc) | hc
    · have hschne2 : sch ≠ [] := by
        intro h0
        rw [h0] at hc
        cases hc
      obtain ⟨c0, hc0, rfl⟩ := (hschne hschne2).2.2.2 c hc
      exact isTNL_toLower (hstnl c0 hc0)
    · exact hstnl c (hr1s _ (hnlsub _ hc))
    · exact hstnl c (hpsub pth hpre c hc)
    · exact hstnl c (hq1sub c (hparsub c hc))
    · apply hstnl
      apply hr1s
      apply hr2r1
      rw [← hTf]
      exact List.mem_append_left _ (hqrysub c hc)
  by_cases hbr : sch ∈ uses_params ∧ (';' : Char) ∈ q1
  · rw [if_pos hbr]
    obtain ⟨⟨Tp, hTp⟩, hpsemi, hparsub, hparsl, hphead, hpnil⟩ :=
      splitParams_facts q1 (splitParams q1).1 (splitParams q1).2 rfl
    unfold goodParse
    refine ⟨?_, hnlnd, hpno _ ⟨Tp, hTp⟩, fun _ => hpsemi, ?_, ?_, hqryno,
      hC8 _ ⟨Tp, hTp⟩, hC9 _ ⟨Tp, hTp⟩, ?_, hTNL _ ⟨Tp, hTp⟩ _ hparsub,
      hC12 _ ⟨Tp, hTp⟩⟩
    · intro hne
      obtain ⟨h1, h2, h3, -⟩ := hschne hne
      exact ⟨h1, h2, h3⟩
    · intro hnup
      exact absurd hbr.1 hnup
    · intro c hc
      exact ⟨fun h0 => hparsl (h0 ▸ hc), (hq1no c (hparsub c hc)).1,
        (hq1no c (hparsub c hc)).2⟩
    · intro hnlne hp0
      by_contra hparne
      obtain ⟨hq1ne, hq1semi⟩ := hpnil hp0 hparne
      obtain ⟨hr2ne, hh⟩ := hq1r2head hq1ne
      rcases hnlshape hnlne with h0 | h0
      · exact hr2ne h0
      · rw [← hh, hq1semi] at h0
        exact absurd h0 (by decide)
  · rw [if_neg hbr]
    unfold goodParse
    have hq1pre : ∃ T0, q1 ++ T0 = q1 := ⟨[], List.append_nil _⟩
    refine ⟨?_, hnlnd, hpno _ hq1pre, ?_, fun _ => rfl,
      fun c hc => absurd hc (List.not_mem_nil c), hqryno,
      hC8 _ hq1pre, hC9 _ hq1pre, fun _ _ => rfl,
      hTNL _ hq1pre [] (fun c hc => absurd hc (List.not_mem_nil c)),
      hC12 _ hq1pre⟩
    · intro hne
      obtain ⟨h1, h2, h3, -⟩ := hschne hne
      exact ⟨h1, h2, h3⟩
    · intro hup hm
      apply hbr
      refine ⟨hup, ?_⟩
      obtain ⟨a, ha⟩ := afterLastSlash_suffix q1
      rw [← ha]
      exact List.mem_append_right _ hm

theorem urlparse_good (u : List Char) : goodParse (urlparse u) := by
  have h := goodParse_build (stripUnsafe u)
    (extractScheme (stripUnsafe u)).1 (extractScheme (stripUnsafe u)).2
    (extractNetloc (extractScheme (stripUnsafe u)).2).1
    (extractNetloc (extractScheme (stripUnsafe u)).2).2
    (splitOnFirst '#' (extractNetloc (extractScheme (stripUnsafe u)).2).2).1
    (splitOnFirst '?'
      (splitOnFirst '#' (extractNetloc (extractScheme (stripUnsafe u)).2).2).1).1
    (splitOnFirst '?'
      (splitOnFirst '#' (extractNetloc (extractScheme (stripUnsafe u)).2).2).1).2
    (splitOnFirst '#' (extractNetloc (extractScheme (stripUnsafe u)).2).2).2
    (stripUnsafe_head u) (stripUnsafe_tnl_free u) rfl rfl rfl rfl
  exact h
theorem isAsciiAlpha_not_c0 {c : Char} (h : isAsciiAlpha c = true) :
    isC0Space c = false := by
  rw [isAsciiAlpha_iff] at h
  rw [isC0Space, decide_eq_false_iff_not]
  omega

theorem append_cons_assoc (a b d : List Char) (c : Char) :
    (a ++ c :: b) ++ d = a ++ c :: (b ++ d) := by
  simp

theorem cons2_eq (a b c d : Char) (x y : List Char) (h : a :: b :: x = c :: d :: y) :
    a = c ∧ b = d := by
  obtain ⟨h1, h2⟩ := (List.cons.injEq _ _ _ _).mp h
  obtain ⟨h3, -⟩ := (List.cons.injEq _ _ _ _).mp h2
  exact ⟨h1, h3⟩

theorem cons_if_u1 (pth par : List Char) (c : Char) :
    c :: (if par ≠ [] then pth ++ ';' :: par else pth)
      = (if par ≠ [] then (c :: pth) ++ ';' :: par else c :: pth) := by
  split <;> rfl

theorem headI_ne_slash {l : List Char} (hne : l ≠ []) (h : l.head? ≠ some '/') :
    l.headI ≠ '/' := by
  cases l with
  | nil => exact absurd rfl hne
  | cons c t =>
    intro h0
    have h1 : c = '/' := h0
    apply h
    show some c = some '/'
    rw [h1]

theorem tnl_u1 (pth par : List Char)
    (hp : ∀ c ∈ pth, isTNL c = false) (hr : ∀ c ∈ par, isTNL c = false) :
    ∀ c ∈ (if par ≠ [] then pth ++ ';' :: par else pth), isTNL c = false := by
  intro c hc
  revert hc
  split
  · intro hc
    rcases List.mem_append.mp hc with h1 | h1
    · exact hp c h1
    · rcases List.mem_cons.mp h1 with rfl | h1
      · decide
      · exact hr c h1
  · intro hc
    exact hp c hc

theorem tnl_cons (m : Char) (l : List Char) (hm : isTNL m = false)
    (h : ∀ c ∈ l, isTNL c = false) : ∀ c ∈ (m :: l : List Char), isTNL c = false := by
  intro c hc
  rcases List.mem_cons.mp hc with rfl | hc
  · exact hm
  · exact h c hc

theorem tnl_slashes (nl X : List Char)
    (hn : ∀ c ∈ nl, isTNL c = false) (hX : ∀ c ∈ X, isTNL c = false) :
    ∀ c ∈ ('/' :: '/' :: (nl ++ X) : List Char), isTNL c = false := by
  apply tnl_cons _ _ (by decide)
  apply tnl_cons _ _ (by decide)
  intro c hc
  rcases List.mem_append.mp hc with h1 | h1
  · exact hn c h1
  · exact hX c h1

theorem tnl_outer (sch C qry : List Char)
    (hs : ∀ c ∈ sch, isTNL c = false)
    (hC : ∀ c ∈ C, isTNL c = false)
    (hq : ∀ c ∈ qry, isTNL c = false) :
    ∀ c ∈ (if sch ≠ [] then sch ++ ':' :: C else C) ++
        (if qry ≠ [] then ('?' :: qry : List Char) else []), isTNL c = false := by
  intro c hc
  rcases List.mem_append.mp hc with h1 | h1
  · revert h1
    split
    · intro h1
      rcases List.mem_append.mp h1 with h2 | h2
      · exact hs c h2
      · rcases List.mem_cons.mp h2 with rfl | h2
        · decide
        · exact hC c h2
    · intro h1
      exact hC c h1
  · revert h1
    split
    · intro h1
      rcases List.mem_cons.mp h1 with rfl | h2
      · decide
      · exact hq c h2
    · intro h1
      cases h1

theorem qmark_not_u1 (pth par : List Char)
    (g3 : ∀ c ∈ pth, c ≠ '?' ∧ c ≠ '#')
    (g6 : ∀ c ∈ par, c ≠ '/' ∧ c ≠ '?' ∧ c ≠ '#') :
    ('?' : Char) ∉ (if par ≠ [] then pth ++ ';' :: par else pth) := by
  intro hm
  revert hm
  split
  · intro hm
    rcases List.mem_append.mp hm with h1 | h1
    · exact (g3 _ h1).1 rfl
    · rcases List.mem_cons.mp h1 with h2 | h2
      · exact absurd h2 (by decide)
      · exact (g6 _ h2).2.1 rfl
  · intro hm
    exact (g3 _ hm).1 rfl

theorem hash_not_u1 (pth par : List Char)
    (g3 : ∀ c ∈ pth, c ≠ '?' ∧ c ≠ '#')
    (g6 : ∀ c ∈ par, c ≠ '/' ∧ c ≠ '?' ∧ c ≠ '#') :
    ('#' : Char) ∉ (if par ≠ [] then pth ++ ';' :: par else pth) := by
  intro hm
  revert hm
  split
  · intro hm
    rcases List.mem_append.mp hm with h1 | h1
    · exact (g3 _ h1).2 rfl
    · rcases List.mem_cons.mp h1 with h2 | h2
      · exact absurd h2 (by decide)
      · exact (g6 _ h2).2.2 rfl
  · intro hm
    exact (g3 _ hm).2 rfl

theorem hash_not_qp (qry : List Char) (g7 : ('#' : Char) ∉ qry) :
    ('#' : Char) ∉ (if qry ≠ [] then ('?' :: qry : List Char) else []) := by
  intro hm
  revert hm
  split
  · intro hm
    rcases List.mem_cons.mp hm with h1 | h1
    · exact absurd h1 (by decide)
    · exact g7 h1
  · intro hm
    cases hm

theorem split_qpart (A qry : List Char) (h : ('?' : Char) ∉ A) :
    splitOnFirst '?' (A ++ (if qry ≠ [] then ('?' :: qry : List Char) else []))
      = (A, qry) := by
  by_cases hq : qry = []
  · subst hq
    rw [if_neg (not_not_intro rfl), List.append_nil]
    exact splitOnFirst_not_mem '?' A h
  · rw [if_pos hq]
    exact splitOnFirst_split '?' A qry h

theorem u1_qp_shape (u1 qp : List Char)
    (hfix : ¬(u1 ≠ [] ∧ u1.head? ≠ some '/'))
    (hqp : qp = [] ∨ ∃ q, qp = '?' :: q) :
    u1 ++ qp = [] ∨
    ∃ c r2, u1 ++ qp = c :: r2 ∧ isNetlocDelim c = true := by
  rcases u1 with _ | ⟨c, t⟩
  · rw [List.nil_append]
    rcases hqp with rfl | ⟨q, rfl⟩
    · exact Or.inl rfl
    · exact Or.inr ⟨'?', q, rfl, by decide⟩
  · have hc : c = '/' := by
      by_contra hc0
      exact hfix ⟨List.cons_ne_nil _ _, by simp [hc0]⟩
    subst hc
    exact Or.inr ⟨'/', t ++ qp, by rw [List.cons_append], by decide⟩

theorem take2_ne_aux (pth par qry : List Char) (h : pth.take 2 ≠ ['/', '/']) :
    ((if par ≠ [] then pth ++ ';' :: par else pth) ++
      (if qry ≠ [] then ('?' :: qry : List Char) else [])).take 2 ≠ ['/', '/'] := by
  intro h2
  rcases take2_slash_iff _ |>.mp h2 with ⟨t, ht⟩
  rcases pth with _ | ⟨c1, pr⟩
  · revert ht
    split
    · rw [List.nil_append, List.cons_append]
      intro ht
      have h3 : (';' : Char) = '/' := ((List.cons.injEq _ _ _ _).mp ht).1
      exact absurd h3 (by decide)
    · rw [List.nil_append]
      split
      · intro ht
        have h3 : ('?' : Char) = '/' := ((List.cons.injEq _ _ _ _).mp ht).1
        exact absurd h3 (by decide)
      · intro ht
        simp at ht
  · rcases pr with _ | ⟨c2, r⟩
    · revert ht
      split
      · rw [show (([c1] : List Char) ++ ';' :: par) = c1 :: ';' :: par from rfl,
            List.cons_append, List.cons_append]
        intro ht
        obtain ⟨-, h4⟩ := cons2_eq _ _ _ _ _ _ ht
        exact absurd h4 (by decide)
      · split
        · intro ht
          rw [show (([c1] : List Char) ++ '?' :: qry) = c1 :: '?' :: qry from rfl] at ht
          obtain ⟨-, h4⟩ := cons2_eq _ _ _ _ _ _ ht
          exact absurd h4 (by decide)
        · rw [List.append_nil]
          intro ht
          have h4 : ([] : List Char) = '/' :: t :=
            ((List.cons.injEq _ _ _ _).mp ht).2
          simp at h4
    · apply h
      have h5 : c1 = '/' ∧ c2 = '/' := by
        revert ht
        split
        · rw [List.cons_append, List.cons_append, List.cons_append, List.cons_append]
          intro ht
          exact cons2_eq _ _ _ _ _ _ ht
        · rw [List.cons_append, List.cons_append]
          intro ht
          exact cons2_eq _ _ _ _ _ _ ht
      rw [show ((c1 :: c2 :: r : List Char)).take 2 = [c1, c2] from rfl, h5.1, h5.2]

theorem head_outer_c0 (sch C qry : List Char)
    (hs : sch ≠ [] → isC0Space sch.headI = false)
    (hC : sch = [] → (C ++ (if qry ≠ [] then ('?' :: qry : List Char) else []) = [] ∨
        isC0Space (C ++ (if qry ≠ [] then ('?' :: qry : List Char) else [])).headI = false)) :
    (if sch ≠ [] then sch ++ ':' :: C else C) ++
        (if qry ≠ [] then ('?' :: qry : List Char) else []) = [] ∨
    isC0Space ((if sch ≠ [] then sch ++ ':' :: C else C) ++
        (if qry ≠ [] then ('?' :: qry : List Char) else [])).headI = false := by
  by_cases h0 : sch ≠ []
  · right
    rw [if_pos h0]
    have hne : sch ++ ':' :: C ≠ [] := by
      intro hh
      exact h0 (List.append_eq_nil.mp hh).1
    rw [headI_append _ hne, headI_append _ h0]
    exact hs h0
  · rw [if_neg h0]
    exact hC (not_not.mp h0)

theorem head_u1_qp_c0 (pth par qry : List Char)
    (hpC0 : pth ≠ [] → isC0Space pth.headI = false) :
    (if par ≠ [] then pth ++ ';' :: par else pth) ++
        (if qry ≠ [] then ('?' :: qry : List Char) else []) = [] ∨
    isC0Space ((if par ≠ [] then pth ++ ';' :: par else pth) ++
        (if qry ≠ [] then ('?' :: qry : List Char) else [])).headI = false := by
  by_cases hpth : pth = []
  · subst hpth
    by_cases hp : par ≠ []
    · right
      rw [if_pos hp, List.nil_append, List.cons_append]
      show isC0Space ';' = false
      decide
    · rw [if_neg hp, List.nil_append]
      by_cases hq : qry ≠ []
      · right
        rw [if_pos hq]
        show isC0Space '?' = false
        decide
      · rw [if_neg hq]
        exact Or.inl rfl
  · right
    have hBne : (if par ≠ [] then pth ++ ';' :: par else pth) ≠ [] := by
      split
      · intro hh
        exact hpth (List.append_eq_nil.mp hh).1
      · exact hpth
    rw [headI_append _ hBne]
    have hh : (if par ≠ [] then pth ++ ';' :: par else pth).headI = pth.headI := by
      split
      · exact headI_append _ hpth
      · rfl
    rw [hh]
    exact hpC0 hpth

theorem urlparse_eq (u sch r1 nl r2 f1 q1 qry frag : List Char)
    (hs : stripUnsafe u = u)
    (hsch : extractScheme u = (sch, r1))
    (hnl : extractNetloc r1 = (nl, r2))
    (hfr : splitOnFirst '#' r2 = (f1, frag))
    (hqr : splitOnFirst '?' f1 = (q1, qry)) :
    urlparse u = if sch ∈ uses_params ∧ (';' : Char) ∈ q1 then
        ⟨sch, nl, (splitParams q1).1, (splitParams q1).2, qry, frag⟩
      else ⟨sch, nl, q1, [], qry, frag⟩ := by
  simp only [urlparse, hs, hsch, hnl, hfr, hqr]

theorem params_stage (sch pthX par nl qry frag : List Char)
    (hup : sch ∈ uses_params → (';' : Char) ∉ afterLastSlash pthX)
    (hsl : ('/' : Char) ∉ par)
    (hpar5 : sch ∉ uses_params → par = []) :
    (if sch ∈ uses_params ∧
        (';' : Char) ∈ (if par ≠ [] then pthX ++ ';' :: par else pthX) then
        (⟨sch, nl, (splitParams (if par ≠ [] then pthX ++ ';' :: par else pthX)).1,
          (splitParams (if par ≠ [] then pthX ++ ';' :: par else pthX)).2, qry, frag⟩
          : UrlComponents)
      else ⟨sch, nl, (if par ≠ [] then pthX ++ ';' :: par else pthX), [], qry, frag⟩)
    = ⟨sch, nl, pthX, par, qry, frag⟩ := by
  by_cases hp : par = []
  · subst hp
    have h0 : (if ([] : List Char) ≠ [] then pthX ++ ';' :: ([] : List Char) else pthX)
        = pthX := if_neg (not_not_intro rfl)
    rw [h0]
    by_cases hbr : sch ∈ uses_params ∧ (';' : Char) ∈ pthX
    · rw [if_pos hbr, splitParams_no pthX (hup hbr.1)]
    · rw [if_neg hbr]
  · have hq1 : (if par ≠ [] then pthX ++ ';' :: par else pthX) = pthX ++ ';' :: par :=
      if_pos hp
    rw [hq1]
    have hupar : sch ∈ uses_params := by
      by_contra h0
      exact hp (hpar5 h0)
    rw [if_pos ⟨hupar, List.mem_append_right _ (List.mem_cons_self _ _)⟩,
        splitParams_yes pthX par (hup hupar) hsl]

theorem roundtrip_plain (sch nl pth par qry u1 : List Char)
    (hu1 : u1 = if par ≠ [] then pth ++ ';' :: par else pth)
    (hcond : ¬(nl ≠ [] ∨ (sch ≠ [] ∧ sch ∈ uses_netloc ∧ u1.take 2 ≠ ['/', '/']))) :
    urlunparse ⟨sch, nl, pth, par, qry, []⟩ =
      (if sch ≠ [] then sch ++ ':' :: u1 else u1) ++
      (if qry ≠ [] then ('?' :: qry : List Char) else []) := by
  subst hu1
  simp only [urlunparse]
  rw [if_neg hcond, if_neg (not_not_intro rfl)]
  by_cases hq : qry ≠ []
  · rw [if_pos hq, if_pos hq]
  · rw [if_neg hq, if_neg hq, List.append_nil]

theorem roundtrip_slashes (sch nl pth par qry u1 X : List Char)
    (hu1 : u1 = if par ≠ [] then pth ++ ';' :: par else pth)
    (hX : X = if u1 ≠ [] ∧ u1.head? ≠ some '/' then '/' :: u1 else u1)
    (hcond : nl ≠ [] ∨ (sch ≠ [] ∧ sch ∈ uses_netloc ∧ u1.take 2 ≠ ['/', '/'])) :
    urlunparse ⟨sch, nl, pth, par, qry, []⟩ =
      (if sch ≠ [] then sch ++ ':' :: ('/' :: '/' :: (nl ++ X))
        else '/' :: '/' :: (nl ++ X)) ++
      (if qry ≠ [] then ('?' :: qry : List Char) else []) := by
  subst hu1
  subst hX
  simp only [urlunparse]
  rw [if_pos hcond, if_neg (not_not_intro rfl)]
  by_cases hq : qry ≠ []
  · rw [if_pos hq, if_pos hq]
  · rw [if_neg hq, if_neg hq, List.append_nil]
theorem extractScheme_u1_qp (pth par qry : List Char)
    (h : extractScheme pth = ([], pth)) :
    extractScheme ((if par ≠ [] then pth ++ ';' :: par else pth) ++
      (if qry ≠ [] then ('?' :: qry : List Char) else [])) =
      ([], (if par ≠ [] then pth ++ ';' :: par else pth) ++
        (if qry ≠ [] then ('?' :: qry : List Char) else [])) := by
  by_cases hp : par ≠ []
  · rw [if_pos hp, append_cons_assoc]
    exact extractScheme_eq_self_append_tail pth _ h
      (Or.inr ⟨';', _, rfl, by decide, by decide⟩)
  · rw [if_neg hp]
    by_cases hq : qry ≠ []
    · rw [if_pos hq]
      exact extractScheme_eq_self_append_tail pth _ h
        (Or.inr ⟨'?', qry, rfl, by decide, by decide⟩)
    · rw [if_neg hq, List.append_nil]
      exact h

theorem urlparse_unparse_plain (sch pth par qry : List Char)
    (g1 : sch ≠ [] → isAsciiAlpha sch.headI = true ∧ sch.all isSchemeChar = true ∧
      sch.map Char.toLower = sch)
    (g3 : ∀ c ∈ pth, c ≠ '?' ∧ c ≠ '#')
    (g4 : sch ∈ uses_params → (';' : Char) ∉ afterLastSlash pth)
    (g5 : sch ∉ uses_params → par = [])
    (g6 : ∀ c ∈ par, c ≠ '/' ∧ c ≠ '?' ∧ c ≠ '#')
    (g7 : ('#' : Char) ∉ qry)
    (g8 : sch = [] → extractScheme pth = ([], pth))
    (g12 : sch = [] → pth ≠ [] → isC0Space pth.headI = false)
    (tS : ∀ c ∈ sch, isTNL c = false) (tP : ∀ c ∈ pth, isTNL c = false)
    (tR : ∀ c ∈ par, isTNL c = false) (tQ : ∀ c ∈ qry, isTNL c = false)
    (gtake : pth.take 2 ≠ ['/', '/'])
    (hcondB : ¬(sch ≠ [] ∧ sch ∈ uses_netloc ∧
        (if par ≠ [] then pth ++ ';' :: par else pth).take 2 ≠ ['/', '/'])) :
    urlparse (urlunparse ⟨sch, [], pth, par, qry, []⟩)
      = ⟨sch, [], pth, par, qry, []⟩ := by
  have hcond : ¬(([] : List Char) ≠ [] ∨ (sch ≠ [] ∧ sch ∈ uses_netloc ∧
      (if par ≠ [] then pth ++ ';' :: par else pth).take 2 ≠ ['/', '/'])) := by
    rintro (h0 | h0)
    · exact h0 rfl
    · exact hcondB h0
  have hU := roundtrip_plain sch [] pth par qry _ rfl hcond
  have hclean : stripUnsafe (urlunparse ⟨sch, [], pth, par, qry, []⟩)
      = urlunparse ⟨sch, [], pth, par, qry, []⟩ := by
    rw [hU]
    exact stripUnsafe_eq_self _
      (tnl_outer sch _ qry tS (tnl_u1 pth par tP tR) tQ)
      (head_outer_c0 sch _ qry (fun h0 => isAsciiAlpha_not_c0 (g1 h0).1)
        (fun h0 => head_u1_qp_c0 pth par qry (g12 h0)))
  have hES : extractScheme (urlunparse ⟨sch, [], pth, par, qry, []⟩)
      = (sch, (if par ≠ [] then pth ++ ';' :: par else pth) ++
          (if qry ≠ [] then ('?' :: qry : List Char) else [])) := by
    rw [hU]
    by_cases h0 : sch ≠ []
    · rw [if_pos h0, append_cons_assoc]
      exact extractScheme_recover sch _ h0 (g1 h0).1 (g1 h0).2.1 (g1 h0).2.2
    · rw [if_neg h0]
      have h1 := not_not.mp h0
      rw [h1]
      exact extractScheme_u1_qp pth par qry (g8 h1)
  have hEN : extractNetloc ((if par ≠ [] then pth ++ ';' :: par else pth) ++
      (if qry ≠ [] then ('?' :: qry : List Char) else []))
      = ([], (if par ≠ [] then pth ++ ';' :: par else pth) ++
          (if qry ≠ [] then ('?' :: qry : List Char) else [])) :=
    extractNetloc_not_slashes _ (take2_ne_aux pth par qry gtake)
  have hhash : ('#' : Char) ∉ (if par ≠ [] then pth ++ ';' :: par else pth) ++
      (if qry ≠ [] then ('?' :: qry : List Char) else []) := by
    intro hm
    rcases List.mem_append.mp hm with h1 | h1
    · exact hash_not_u1 pth par g3 g6 h1
    · exact hash_not_qp qry g7 h1
  have hEF := splitOnFirst_not_mem '#' _ hhash
  have hEQ := split_qpart _ qry (qmark_not_u1 pth par g3 g6)
  rw [urlparse_eq _ sch _ [] _ _ _ qry [] hclean hES hEN hEF hEQ]
  exact params_stage sch pth par [] qry [] g4 (fun hm => (g6 _ hm).1 rfl) g5

theorem urlparse_unparse_nofix (sch nl pth par qry : List Char)
    (g1 : sch ≠ [] → isAsciiAlpha sch.headI = true ∧ sch.all isSchemeChar = true ∧
      sch.map Char.toLower = sch)
    (g2 : ∀ c ∈ nl, isNetlocDelim c = false)
    (g3 : ∀ c ∈ pth, c ≠ '?' ∧ c ≠ '#')
    (g4 : sch ∈ uses_params → (';' : Char) ∉ afterLastSlash pth)
    (g5 : sch ∉ uses_params → par = [])
    (g6 : ∀ c ∈ par, c ≠ '/' ∧ c ≠ '?' ∧ c ≠ '#')
    (g7 : ('#' : Char) ∉ qry)
    (tS : ∀ c ∈ sch, isTNL c = false) (tN : ∀ c ∈ nl, isTNL c = false)
    (tP : ∀ c ∈ pth, isTNL c = false)
    (tR : ∀ c ∈ par, isTNL c = false) (tQ : ∀ c ∈ qry, isTNL c = false)
    (hcond : nl ≠ [] ∨ (sch ≠ [] ∧ sch ∈ uses_netloc ∧
        (if par ≠ [] then pth ++ ';' :: par else pth).take 2 ≠ ['/', '/']))
    (hfix : ¬((if par ≠ [] then pth ++ ';' :: par else pth) ≠ [] ∧
        (if par ≠ [] then pth ++ ';' :: par else pth).head? ≠ some '/')) :
    urlparse (urlunparse ⟨sch, nl, pth, par, qry, []⟩)
      = ⟨sch, nl, pth, par, qry, []⟩ := by
  have hU := roundtrip_slashes sch nl pth par qry _ _ rfl (if_neg hfix).symm hcond
  have hCqp : ('/' :: '/' :: (nl ++ (if par ≠ [] then pth ++ ';' :: par else pth))
        : List Char) ++ (if qry ≠ [] then ('?' :: qry : List Char) else [])
      = '/' :: '/' :: (nl ++ ((if par ≠ [] then pth ++ ';' :: par else pth) ++
          (if qry ≠ [] then ('?' :: qry : List Char) else []))) := by
    simp
  have hclean : stripUnsafe (urlunparse ⟨sch, nl, pth, par, qry, []⟩)
      = urlunparse ⟨sch, nl, pth, par, qry, []⟩ := by
    rw [hU]
    refine stripUnsafe_eq_self _
      (tnl_outer sch _ qry tS (tnl_slashes nl _ tN (tnl_u1 pth par tP tR)) tQ)
      (head_outer_c0 sch _ qry (fun h0 => isAsciiAlpha_not_c0 (g1 h0).1)
        (fun _ => Or.inr ?_))
    rw [List.cons_append]
    show isC0Space '/' = false
    decide
  have hES : extractScheme (urlunparse ⟨sch, nl, pth, par, qry, []⟩)
      = (sch, '/' :: '/' :: (nl ++ ((if par ≠ [] then pth ++ ';' :: par else pth) ++
          (if qry ≠ [] then ('?' :: qry : List Char) else [])))) := by
    rw [hU]
    by_cases h0 : sch ≠ []
    · rw [if_pos h0, append_cons_assoc, hCqp]
      exact extractScheme_recover sch _ h0 (g1 h0).1 (g1 h0).2.1 (g1 h0).2.2
    · rw [if_neg h0, hCqp, not_not.mp h0]
      exact extractScheme_head_bad '/' _ (Or.inr (by decide))
  have hqpshape : (if qry ≠ [] then ('?' :: qry : List Char) else []) = [] ∨
      ∃ q, (if qry ≠ [] then ('?' :: qry : List Char) else []) = '?' :: q := by
    split
    · exact Or.inr ⟨qry, rfl⟩
    · exact Or.inl rfl
  have hEN : extractNetloc ('/' :: '/' :: (nl ++
        ((if par ≠ [] then pth ++ ';' :: par else pth) ++
          (if qry ≠ [] then ('?' :: qry : List Char) else []))))
      = (nl, (if par ≠ [] then pth ++ ';' :: par else pth) ++
          (if qry ≠ [] then ('?' :: qry : List Char) else [])) :=
    extractNetloc_slashes nl _ g2 (u1_qp_shape _ _ hfix hqpshape)
  have hhash : ('#' : Char) ∉ (if par ≠ [] then pth ++ ';' :: par else pth) ++
      (if qry ≠ [] then ('?' :: qry : List Char) else []) := by
    intro hm
    rcases List.mem_append.mp hm with h1 | h1
    · exact hash_not_u1 pth par g3 g6 h1
    · exact hash_not_qp qry g7 h1
  have hEF := splitOnFirst_not_mem '#' _ hhash
  have hEQ := split_qpart _ qry (qmark_not_u1 pth par g3 g6)
  rw [urlparse_eq _ sch _ nl _ _ _ qry [] hclean hES hEN hEF hEQ]
  exact params_stage sch pth par nl qry [] g4 (fun hm => (g6 _ hm).1 rfl) g5

theorem urlparse_unparse_fix (sch nl pth par qry : List Char)
    (g1 : sch ≠ [] → isAsciiAlpha sch.headI = true ∧ sch.all isSchemeChar = true ∧
      sch.map Char.toLower = sch)
    (g2 : ∀ c ∈ nl, isNetlocDelim c = false)
    (g3 : ∀ c ∈ pth, c ≠ '?' ∧ c ≠ '#')
    (g4 : sch ∈ uses_params → (';' : Char) ∉ afterLastSlash pth)
    (g5 : sch ∉ uses_params → par = [])
    (g6 : ∀ c ∈ par, c ≠ '/' ∧ c ≠ '?' ∧ c ≠ '#')
    (g7 : ('#' : Char) ∉ qry)
    (tS : ∀ c ∈ sch, isTNL c = false) (tN : ∀ c ∈ nl, isTNL c = false)
    (tP : ∀ c ∈ pth, isTNL c = false)
    (tR : ∀ c ∈ par, isTNL c = false) (tQ : ∀ c ∈ qry, isTNL c = false)
    (hcond : nl ≠ [] ∨ (sch ≠ [] ∧ sch ∈ uses_netloc ∧
        (if par ≠ [] then pth ++ ';' :: par else pth).take 2 ≠ ['/', '/']))
    (hfix : (if par ≠ [] then pth ++ ';' :: par else pth) ≠ [] ∧
        (if par ≠ [] then pth ++ ';' :: par else pth).head? ≠ some '/') :
    urlparse (urlunparse ⟨sch, nl, pth, par, qry, []⟩)
      = ⟨sch, nl, '/' :: pth, par, qry, []⟩ := by
  have hU := roundtrip_slashes sch nl pth par qry _ _ rfl (if_pos hfix).symm hcond
  have hCqp : ('/' :: '/' :: (nl ++
        ('/' :: (if par ≠ [] then pth ++ ';' :: par else pth))) : List Char) ++
        (if qry ≠ [] then ('?' :: qry : List Char) else [])
      = '/' :: '/' :: (nl ++ (('/' :: (if par ≠ [] then pth ++ ';' :: par else pth)) ++
          (if qry ≠ [] then ('?' :: qry : List Char) else []))) := by
    simp
  have hclean : stripUnsafe (urlunparse ⟨sch, nl, pth, par, qry, []⟩)
      = urlunparse ⟨sch, nl, pth, par, qry, []⟩ := by
    rw [hU]
    refine stripUnsafe_eq_self _
      (tnl_outer sch _ qry tS
        (tnl_slashes nl _ tN (tnl_cons _ _ (by decide) (tnl_u1 pth par tP tR))) tQ)
      (head_outer_c0 sch _ qry (fun h0 => isAsciiAlpha_not_c0 (g1 h0).1)
        (fun _ => Or.inr ?_))
    rw [List.cons_append]
    show isC0Space '/' = false
    decide
  have hES : extractScheme (urlunparse ⟨sch, nl, pth, par, qry, []⟩)
      = (sch, '/' :: '/' :: (nl ++
          (('/' :: (if par ≠ [] then pth ++ ';' :: par else pth)) ++
            (if qry ≠ [] then ('?' :: qry : List Char) else [])))) := by
    rw [hU]
    by_cases h0 : sch ≠ []
    · rw [if_pos h0, append_cons_assoc, hCqp]
      exact extractScheme_recover sch _ h0 (g1 h0).1 (g1 h0).2.1 (g1 h0).2.2
    · rw [if_neg h0, hCqp, not_not.mp h0]
      exact extractScheme_head_bad '/' _ (Or.inr (by decide))
  have hEN : extractNetloc ('/' :: '/' :: (nl ++
        (('/' :: (if par ≠ [] then pth ++ ';' :: par else pth)) ++
          (if qry ≠ [] then ('?' :: qry : List Char) else []))))
      = (nl, ('/' :: (if par ≠ [] then pth ++ ';' :: par else pth)) ++
          (if qry ≠ [] then ('?' :: qry : List Char) else [])) :=
    extractNetloc_slashes nl _ g2
      (Or.inr ⟨'/', (if par ≠ [] then pth ++ ';' :: par else pth) ++
        (if qry ≠ [] then ('?' :: qry : List Char) else []),
        by rw [List.cons_append], by decide⟩)
  have hhash : ('#' : Char) ∉ ('/' :: (if par ≠ [] then pth ++ ';' :: par else pth)) ++
      (if qry ≠ [] then ('?' :: qry : List Char) else []) := by
    intro hm
    rcases List.mem_append.mp hm with h1 | h1
    · rcases List.mem_cons.mp h1 with h2 | h2
      · exact absurd h2 (by decide)
      · exact hash_not_u1 pth par g3 g6 h2
    · exact hash_not_qp qry g7 h1
  have hEF := splitOnFirst_not_mem '#' _ hhash
  have hqm : ('?' : Char) ∉ '/' :: (if par ≠ [] then pth ++ ';' :: par else pth) := by
    intro hm
    rcases List.mem_cons.mp hm with h2 | h2
    · exact absurd h2 (by decide)
    · exact qmark_not_u1 pth par g3 g6 h2
  have hEQ : splitOnFirst '?'
      (('/' :: (if par ≠ [] then pth ++ ';' :: par else pth)) ++
        (if qry ≠ [] then ('?' :: qry : List Char) else []))
      = ((if par ≠ [] then ('/' :: pth) ++ ';' :: par else '/' :: pth), qry) := by
    rw [← cons_if_u1]
    exact split_qpart _ qry hqm
  rw [urlparse_eq _ sch _ nl _ _ _ qry [] hclean hES hEN hEF hEQ]
  refine params_stage sch ('/' :: pth) par nl qry [] ?_ (fun hm => (g6 _ hm).1 rfl) g5
  intro hup
  rw [afterLastSlash_cons_slash]
  exact g4 hup
theorem urlparse_urlunparse (p : UrlComponents) (hg : goodParse p)
    (hf : p.fragment = [])
    (hbad : ¬(p.netloc = [] ∧ p.path.take 2 = ['/', '/'])) :
    urlparse (urlunparse p) = p ∨
    (urlparse (urlunparse p)
        = ⟨p.scheme, p.netloc, '/' :: p.path, p.params, p.query, []⟩ ∧
     p.netloc = [] ∧ p.scheme ≠ [] ∧ p.scheme ∈ uses_netloc ∧
     (if p.params ≠ [] then p.path ++ ';' :: p.params else p.path) ≠ [] ∧
     (if p.params ≠ [] then p.path ++ ';' :: p.params else p.path).headI ≠ '/') := by
  obtain ⟨sch, nl, pth, par, qry, frag⟩ := p
  obtain ⟨g1, g2, g3, g4, g5, g6, g7, g8, g9, g10, g11, g12⟩ := hg
  dsimp only at hf hbad g1 g2 g3 g4 g5 g6 g7 g8 g9 g10 g11 g12 ⊢
  subst hf
  have hbad2 : ¬(nl = [] ∧ pth.take 2 = ['/', '/']) := hbad
  have g11' : ∀ c ∈ sch ++ nl ++ pth ++ par ++ qry, isTNL c = false := g11
  have tS : ∀ c ∈ sch, isTNL c = false := fun c hc =>
    g11' c (List.mem_append_left _ (List.mem_append_left _
      (List.mem_append_left _ (List.mem_append_left _ hc))))
  have tN : ∀ c ∈ nl, isTNL c = false := fun c hc =>
    g11' c (List.mem_append_left _ (List.mem_append_left _
      (List.mem_append_left _ (List.mem_append_right _ hc))))
  have tP : ∀ c ∈ pth, isTNL c = false := fun c hc =>
    g11' c (List.mem_append_left _ (List.mem_append_left _
      (List.mem_append_right _ hc)))
  have tR : ∀ c ∈ par, isTNL c = false := fun c hc =>
    g11' c (List.mem_append_left _ (List.mem_append_right _ hc))
  have tQ : ∀ c ∈ qry, isTNL c = false := fun c hc =>
    g11' c (List.mem_append_right _ hc)
  by_cases hcond : nl ≠ [] ∨ (sch ≠ [] ∧ sch ∈ uses_netloc ∧
      (if par ≠ [] then pth ++ ';' :: par else pth).take 2 ≠ ['/', '/'])
  · by_cases hfix : (if par ≠ [] then pth ++ ';' :: par else pth) ≠ [] ∧
        (if par ≠ [] then pth ++ ';' :: par else pth).head? ≠ some '/'
    · right
      have hnl0 : nl = [] := by
        by_contra h0
        rcases g9 h0 with hpe | ⟨t, hpt⟩
        · have hpar0 : par = [] := g10 h0 hpe
          apply hfix.1
          rw [if_neg (not_not_intro hpar0), hpe]
        · apply hfix.2
          have h3 : (if par ≠ [] then pth ++ ';' :: par else pth).head? = some '/' := by
            rw [hpt]
            split
            · rw [List.cons_append]
              rfl
            · rfl
          rw [h3]
      have hB : sch ≠ [] ∧ sch ∈ uses_netloc ∧
          (if par ≠ [] then pth ++ ';' :: par else pth).take 2 ≠ ['/', '/'] := by
        rcases hcond with h0 | h0
        · exact absurd hnl0 h0
        · exact h0
      subst hnl0
      exact ⟨urlparse_unparse_fix sch [] pth par qry g1 g2 g3 g4 g5 g6 g7
          tS tN tP tR tQ hcond hfix, rfl, hB.1, hB.2.1, hfix.1,
        headI_ne_slash hfix.1 hfix.2⟩
    · left
      exact urlparse_unparse_nofix sch nl pth par qry g1 g2 g3 g4 g5 g6 g7
        tS tN tP tR tQ hcond hfix
  · left
    have hnl0 : nl = [] := by
      by_contra h0
      exact hcond (Or.inl h0)
    subst hnl0
    have gtake : pth.take 2 ≠ ['/', '/'] := fun h2 => hbad2 ⟨rfl, h2⟩
    exact urlparse_unparse_plain sch pth par qry g1 g3 g4 g5 g6 g7
      (fun h1 => g8 h1 rfl) (fun h1 => g12 h1 rfl) tS tP tR tQ gtake
      (fun h0 => hcond (Or.inr h0))
theorem urlunparse_drift (sch pth par qry : List Char)
    (hs : sch ≠ []) (hn : sch ∈ uses_netloc)
    (hne : (if par ≠ [] then pth ++ ';' :: par else pth) ≠ [])
    (hhead : (if par ≠ [] then pth ++ ';' :: par else pth).headI ≠ '/') :
    urlunparse ⟨sch, [], '/' :: pth, par, qry, []⟩
      = urlunparse ⟨sch, [], pth, par, qry, []⟩ := by
  have hkey : ∀ l : List Char, l.head? = some '/' → l.headI = '/' := by
    intro l hl
    cases l with
    | nil => simp at hl
    | cons c t => exact Option.some.inj hl
  have htake : (if par ≠ [] then pth ++ ';' :: par else pth).take 2 ≠ ['/', '/'] := by
    intro h2
    rcases take2_slash_iff _ |>.mp h2 with ⟨t, ht⟩
    apply hhead
    rw [ht]
    rfl
  have hfix : (if par ≠ [] then pth ++ ';' :: par else pth) ≠ [] ∧
      (if par ≠ [] then pth ++ ';' :: par else pth).head? ≠ some '/' :=
    ⟨hne, fun h2 => hhead (hkey _ h2)⟩
  have hcond1 : ([] : List Char) ≠ [] ∨ (sch ≠ [] ∧ sch ∈ uses_netloc ∧
      (if par ≠ [] then pth ++ ';' :: par else pth).take 2 ≠ ['/', '/']) :=
    Or.inr ⟨hs, hn, htake⟩
  have hcond2 : ([] : List Char) ≠ [] ∨ (sch ≠ [] ∧ sch ∈ uses_netloc ∧
      (if par ≠ [] then ('/' :: pth) ++ ';' :: par else '/' :: pth).take 2
        ≠ ['/', '/']) := by
    right
    refine ⟨hs, hn, ?_⟩
    rw [← cons_if_u1]
    intro h2
    rcases take2_slash_iff _ |>.mp h2 with ⟨t, ht⟩
    apply hhead
    rw [((List.cons.injEq _ _ _ _).mp ht).2]
    rfl
  have hfix2 : ¬((if par ≠ [] then ('/' :: pth) ++ ';' :: par else '/' :: pth) ≠ [] ∧
      (if par ≠ [] then ('/' :: pth) ++ ';' :: par else '/' :: pth).head?
        ≠ some '/') := by
    intro h2
    apply h2.2
    rw [← cons_if_u1]
    rfl
  rw [roundtrip_slashes sch [] ('/' :: pth) par qry _ _ rfl (if_neg hfix2).symm hcond2,
      roundtrip_slashes sch [] pth par qry _ _ rfl (if_pos hfix).symm hcond1]
  rw [← cons_if_u1]

theorem urlparse_eq2 (u s sch r1 nl r2 f1 q1 qry frag : List Char)
    (hs : stripUnsafe u = s)
    (hsch : extractScheme s = (sch, r1))
    (hnl : extractNetloc r1 = (nl, r2))
    (hfr : splitOnFirst '#' r2 = (f1, frag))
    (hqr : splitOnFirst '?' f1 = (q1, qry)) :
    urlparse u = if sch ∈ uses_params ∧ (';' : Char) ∈ q1 then
        ⟨sch, nl, (splitParams q1).1, (splitParams q1).2, qry, frag⟩
      else ⟨sch, nl, q1, [], qry, frag⟩ := by
  simp only [urlparse, hs, hsch, hnl, hfr, hqr]

theorem urlparse_fragment_nil (u : List Char) (h : ('#' : Char) ∉ u) :
    (urlparse u).fragment = [] := by
  have hr1s := (extractScheme_facts (stripUnsafe u)
    (extractScheme (stripUnsafe u)).1 (extractScheme (stripUnsafe u)).2 rfl).1
  have hr2r1 := (extractNetloc_facts (extractScheme (stripUnsafe u)).2
    (extractNetloc (extractScheme (stripUnsafe u)).2).1
    (extractNetloc (extractScheme (stripUnsafe u)).2).2 rfl).2.2.1
  have hh : ('#' : Char) ∉ (extractNetloc (extractScheme (stripUnsafe u)).2).2 := by
    intro hm
    exact h (stripUnsafe_subset u _ (hr1s _ (hr2r1 _ hm)))
  have hsp := splitOnFirst_not_mem '#' _ hh
  have he := urlparse_eq2 u (stripUnsafe u) (extractScheme (stripUnsafe u)).1
    (extractScheme (stripUnsafe u)).2
    (extractNetloc (extractScheme (stripUnsafe u)).2).1
    (extractNetloc (extractScheme (stripUnsafe u)).2).2
    (extractNetloc (extractScheme (stripUnsafe u)).2).2
    (splitOnFirst '?' (extractNetloc (extractScheme (stripUnsafe u)).2).2).1
    (splitOnFirst '?' (extractNetloc (extractScheme (stripUnsafe u)).2).2).2
    [] rfl rfl rfl hsp rfl
  rw [he]
  split <;> rfl
/-- C8 counterexample: `normalize_url` is not idempotent on every URL.
On `'////'` the first pass yields `'//'` (empty netloc swallows nothing,
the path keeps its two slashes), but re-normalizing `'//'` parses the
two slashes as an empty-netloc marker and returns the empty string. -/
theorem normalize_url_not_idempotent :
    normalize_url (normalize_url ("////".toList)) ≠ normalize_url ("////".toList) := by
  decide

/-- C8 (amended): `normalize_url` strips the fragment and preserves the
scheme, netloc, params and query of the parse, and preserves the path up
to a possible compatibility `/` prefix; whenever the parse of `u` does
not have an empty netloc next to a path starting `//`, `normalize_url`
is idempotent. -/
theorem normalize_url_spec (u : List Char)
    (h : ¬((urlparse u).netloc = [] ∧ (urlparse u).path.take 2 = ['/', '/'])) :
    normalize_url (normalize_url u) = normalize_url u ∧
    (urlparse (normalize_url u)).scheme = (urlparse u).scheme ∧
    (urlparse (normalize_url u)).netloc = (urlparse u).netloc ∧
    (urlparse (normalize_url u)).params = (urlparse u).params ∧
    (urlparse (normalize_url u)).query = (urlparse u).query ∧
    (urlparse (normalize_url u)).fragment = [] ∧
    ((urlparse (normalize_url u)).path = (urlparse u).path ∨
     (urlparse (normalize_url u)).path = '/' :: (urlparse u).path) := by
  obtain ⟨sch, nl, pth, par, qry, frag, hu⟩ :
      ∃ a b c d e f, urlparse u = ⟨a, b, c, d, e, f⟩ :=
    ⟨_, _, _, _, _, _, rfl⟩
  rw [hu] at h ⊢
  dsimp only at h ⊢
  have hg0 : goodParse (urlparse u) := urlparse_good u
  rw [hu] at hg0
  have hg : goodParse ⟨sch, nl, pth, par, qry, []⟩ := hg0
  have hN : normalize_url u = urlunparse ⟨sch, nl, pth, par, qry, []⟩ := by
    show urlunparse { urlparse u with fragment := [] } = _
    rw [hu]
  have hrt := urlparse_urlunparse ⟨sch, nl, pth, par, qry, []⟩ hg rfl h
  rcases hrt with hrt | ⟨hrt, hnl, hs, hn, hne, hhead⟩
  · refine ⟨?_, ?_, ?_, ?_, ?_, ?_, Or.inl ?_⟩
    · rw [hN]
      show urlunparse { urlparse (urlunparse ⟨sch, nl, pth, par, qry, []⟩)
          with fragment := [] } = urlunparse ⟨sch, nl, pth, par, qry, []⟩
      rw [hrt]
    · rw [hN, hrt]
    · rw [hN, hrt]
    · rw [hN, hrt]
    · rw [hN, hrt]
    · rw [hN, hrt]
    · rw [hN, hrt]
  · have hnl2 : nl = [] := hnl
    subst hnl2
    refine ⟨?_, ?_, ?_, ?_, ?_, ?_, Or.inr ?_⟩
    · rw [hN]
      show urlunparse { urlparse (urlunparse ⟨sch, [], pth, par, qry, []⟩)
          with fragment := [] } = urlunparse ⟨sch, [], pth, par, qry, []⟩
      rw [hrt]
      show urlunparse ⟨sch, [], '/' :: pth, par, qry, []⟩
          = urlunparse ⟨sch, [], pth, par, qry, []⟩
      exact urlunparse_drift sch pth par qry hs hn hne hhead
    · rw [hN, hrt]
    · rw [hN, hrt]
    · rw [hN, hrt]
    · rw [hN, hrt]
    · rw [hN, hrt]
    · rw [hN, hrt]

theorem normalize_url_spec_witness :
    ¬((urlparse ("http://a.com/p?q#f".toList)).netloc = [] ∧
      (urlparse ("http://a.com/p?q#f".toList)).path.take 2 = ['/', '/']) ∧
    normalize_url (normalize_url ("http://a.com/p?q#f".toList))
      = normalize_url ("http://a.com/p?q#f".toList) ∧
    (urlparse (normalize_url ("http://a.com/p?q#f".toList))).fragment = [] :=
  ⟨by decide, (normalize_url_spec ("http://a.com/p?q#f".toList) (by decide)).1,
   (normalize_url_spec ("http://a.com/p?q#f".toList) (by decide)).2.2.2.2.2.1⟩
